import Mathlib

/-!
# bom: detection and stripping of Unicode byte order marks

A shallow embedding of `main.c` of the `bom` utility, and theorems about it.

* Bytes are `Fin 256`; a `FILE` opened for reading is the list of the bytes
  that remain to be read.  Read errors are not modelled.
* `errx`, `err` and a failed `assert` end the process: the embedded functions
  return `Except Fatal _`, where `Fatal` names the place that ended the run.
* `stdout` is the list of the bytes written so far.  Write errors are not
  modelled.
* `iconv` is an external service: it is a parameter of `bom_strip`.
-/

namespace Bom

/-! ## Data model -/

/-- One octet. -/
abbrev Byte := Fin 256

/-- An input stream: the bytes not yet read. -/
abbrev FILE := List Byte

/-- Exit status `EX_EXPECT_FAIL`. -/
def EX_EXPECT_FAIL : Nat := 2

/-- Exit status `EX_ILLEGAL_BYTES`. -/
def EX_ILLEGAL_BYTES : Nat := 3

/-- The ways a run ends other than by returning: each `errx`/`err` call site of
the modelled functions, and the `assert` of `read_bom`. -/
inductive Fatal where
  /-- `errx(1, "internal error: %s", "input buffer overflow")` in `read_byte` -/
  | input_buffer_overflow
  /-- `errx(1, "internal error: %s", "invalid match state")` in `read_byte` -/
  | invalid_match_state
  /-- `assert(input->match_state[BOM_TYPE_NONE] == MATCH_COMPLETE)` in `read_bom` -/
  | assert_none_complete
  /-- `errx(1, "internal error: %s", ">2 BOM type matches")` in `read_bom` -/
  | too_many_matches
  /-- `errx(EX_EXPECT_FAIL, "unexpected BOM type %s", ...)` in `read_bom` -/
  | unexpected_bom_type
  /-- `errx(1, "unknown BOM type \"%s\"", name)` in `bom_type_from_name` -/
  | unknown_bom_type
  /-- `err(1, "iconv: ...")` after a failed `iconv_open` in `bom_strip` -/
  | iconv_open_failed
  /-- `errx(EX_ILLEGAL_BYTES, "invalid %s byte sequence at file offset %lu", ...)`;
  the argument is the reported file offset -/
  | illegal_bytes (offset : Nat)
  /-- `err(1, "iconv")` in `bom_strip` -/
  | iconv_failed
  deriving DecidableEq, Repr

/-- Exit status of the process for each fatal ending (a failed `assert`
aborts: status 134 stands for `SIGABRT`). -/
def Fatal.status : Fatal → Nat
  | .input_buffer_overflow => 1
  | .invalid_match_state => 1
  | .assert_none_complete => 134
  | .too_many_matches => 1
  | .unexpected_bom_type => EX_EXPECT_FAIL
  | .unknown_bom_type => 1
  | .iconv_open_failed => 1
  | .illegal_bytes _ => EX_ILLEGAL_BYTES
  | .iconv_failed => 1

deriving instance DecidableEq for Except

/-- The record `struct bom_type`. -/
structure bom_type where
  name : String
  encoding : Option String
  bytes : List Byte
  len : Nat
  deriving DecidableEq, Repr, Inhabited

/-- The initialiser `BOM_TYPE(_name, _encoding, _bytes)`: `len` is
`sizeof(_bytes) - 1`, the number of bytes of the literal. -/
def BOM_TYPE (name : String) (encoding : Option String) (bytes : List Byte) : bom_type :=
  { name := name, encoding := encoding, bytes := bytes, len := bytes.length }

/-- The table `bom_types[]`. -/
def bom_types : List bom_type :=
  [ BOM_TYPE "NONE"     none              [],
    BOM_TYPE "UTF-7"    (some "UTF-7")    [0x2b, 0x2f, 0x76],
    BOM_TYPE "UTF-8"    (some "UTF-8")    [0xef, 0xbb, 0xbf],
    BOM_TYPE "UTF-16BE" (some "UTF-16BE") [0xfe, 0xff],
    BOM_TYPE "UTF-16LE" (some "UTF-16LE") [0xff, 0xfe],
    BOM_TYPE "UTF-32BE" (some "UTF-32BE") [0x00, 0x00, 0xfe, 0xff],
    BOM_TYPE "UTF-32LE" (some "UTF-32LE") [0xff, 0xfe, 0x00, 0x00],
    BOM_TYPE "GB18030"  (some "GB18030")  [0x84, 0x31, 0x95, 0x33] ]

def BOM_TYPE_NONE : Nat := 0
def BOM_TYPE_UTF_7 : Nat := 1
def BOM_TYPE_UTF_8 : Nat := 2
def BOM_TYPE_UTF_16BE : Nat := 3
def BOM_TYPE_UTF_16LE : Nat := 4
def BOM_TYPE_UTF_32BE : Nat := 5
def BOM_TYPE_UTF_32LE : Nat := 6
def BOM_TYPE_GB18030 : Nat := 7
def BOM_TYPE_MAX : Nat := 8

/-- The entry `bom_types[bom_type]`. -/
def bom_types_at (i : Nat) : bom_type :=
  bom_types.getD i default

/-- The byte `bt->bytes[i]` of the C string literal: for `i = bt->len` it is
the terminating NUL. -/
def bom_type.byte_at (bt : bom_type) (i : Nat) : Byte :=
  bt.bytes.getD i 0

def BUFFER_SIZE : Nat := 1024

def MATCH_PREFIX : Nat := 0
def MATCH_COMPLETE : Nat := 1
def MATCH_FAILED : Nat := 2

/-- The record `struct bom_input`.  `buf` has `BUFFER_SIZE` cells,
`match_state` has `BOM_TYPE_MAX` cells; `num_complete` is the one counter that
is ever decremented, so it is an `Int`. -/
structure bom_input where
  buf : List Byte
  len : Nat
  num_complete : Int
  num_finished : Nat
  match_state : List Nat
  deriving DecidableEq, Repr

/-- The function `init_bom_input`: `memset` to zero, then the sentinel is made
complete. -/
def init_bom_input : bom_input :=
  { buf := List.replicate BUFFER_SIZE 0
    len := 0
    num_complete := 1
    num_finished := 1
    match_state := (List.replicate BOM_TYPE_MAX MATCH_PREFIX).set BOM_TYPE_NONE MATCH_COMPLETE }

/-! ## The prefix matcher -/

/-- Body of the `for` loop of `read_byte` for one value of `bom_type`, the
byte read being `ch`. -/
def read_byte_update (ch : Byte) (input : bom_input) (bom_type : Nat) :
    Except Fatal bom_input :=
  let bt := bom_types_at bom_type
  match input.match_state.getD bom_type 0 with
  | 0 =>                                                  -- MATCH_PREFIX
    if bt.byte_at input.len ≠ ch then
      .ok { input with
            match_state := input.match_state.set bom_type MATCH_FAILED
            num_finished := input.num_finished + 1 }
    else if bt.len = input.len + 1 then
      .ok { input with
            match_state := input.match_state.set bom_type MATCH_COMPLETE
            num_finished := input.num_finished + 1
            num_complete := input.num_complete + 1 }
    else
      .ok input
  | 1 => .ok input                                        -- MATCH_COMPLETE
  | 2 => .ok input                                        -- MATCH_FAILED
  | _ => .error .invalid_match_state

/-- The function `read_byte`, given the result `ch` of `getc(fp)` (`none` is
`EOF`).  Returns `false` for the C result 0 and `true` for 1. -/
def read_byte (ch : Option Byte) (input : bom_input) : Except Fatal (Bool × bom_input) :=
  match ch with
  | none => .ok (false, input)
  | some ch =>
    if input.len ≥ BUFFER_SIZE then
      .error .input_buffer_overflow
    else
      match (List.range BOM_TYPE_MAX).foldlM (read_byte_update ch) input with
      | .error e => .error e
      | .ok input' =>
        .ok (true, { input' with buf := input'.buf.set input'.len ch, len := input'.len + 1 })

/-- The `while (read_byte(fp, input))` loop of `read_bom`.  Each iteration
takes the next byte of the stream with `getc`; the result is the stream that is
left and the final `bom_input`. -/
def read_bom_loop : FILE → bom_input → Except Fatal (FILE × bom_input)
  | [], input =>
    match read_byte none input with
    | .error e => .error e
    | .ok (_, input') => .ok ([], input')
  | ch :: fp, input =>
    match read_byte (some ch) input with
    | .error e => .error e
    | .ok (false, input') => .ok (fp, input')
    | .ok (true, input') =>
      if input'.num_finished = BOM_TYPE_MAX then .ok (fp, input')
      else read_bom_loop fp input'

/-- The step of `read_bom` that handles the UTF-16LE vs. UTF-32LE ambiguity. -/
def disambiguate (input : bom_input) (prefer32 : Bool) : bom_input :=
  if input.match_state.getD BOM_TYPE_UTF_16LE 0 = MATCH_COMPLETE
      ∧ input.match_state.getD BOM_TYPE_UTF_32LE 0 = MATCH_COMPLETE then
    { input with
      match_state := input.match_state.set
        (if prefer32 then BOM_TYPE_UTF_16LE else BOM_TYPE_UTF_32LE) MATCH_FAILED
      num_complete := input.num_complete - 1 }
  else input

/-- The `for` loop of `case 2` in `read_bom`, started at `bom_type`: the first
index at or after it that is not `BOM_TYPE_NONE` and whose state is complete,
or `BOM_TYPE_MAX` when there is none.  The argument `n` counts the indices left
(`BOM_TYPE_MAX - bom_type`). -/
def find_complete (input : bom_input) : Nat → Nat → Nat
  | 0, bom_type => bom_type
  | n + 1, bom_type =>
    if bom_type ≠ BOM_TYPE_NONE ∧ input.match_state.getD bom_type 0 = MATCH_COMPLETE then bom_type
    else find_complete input n (bom_type + 1)

/-- The part of `read_bom` from the `assert` to the end of the `switch`: the
BOM type chosen from the match states. -/
def select_bom_type (input : bom_input) : Except Fatal Nat :=
  if input.match_state.getD BOM_TYPE_NONE 0 ≠ MATCH_COMPLETE then
    .error .assert_none_complete
  else if input.num_complete = 1 then
    .ok BOM_TYPE_NONE
  else if input.num_complete = 2 then
    let bom_type := find_complete input BOM_TYPE_MAX 0
    if bom_type < BOM_TYPE_MAX then .ok bom_type
    else .error .too_many_matches
  else
    .error .too_many_matches

/-- The function `read_bom`.  `expect_types` is the bit mask of the expected
types (0 when none was given).  Returns the BOM type, the stream left and the
final `bom_input`. -/
def read_bom (fp : FILE) (input : bom_input) (expect_types : Nat) (prefer32 : Bool) :
    Except Fatal (Nat × FILE × bom_input) :=
  match read_bom_loop fp input with
  | .error e => .error e
  | .ok (fp', input') =>
    let input'' := disambiguate input' prefer32
    match select_bom_type input'' with
    | .error e => .error e
    | .ok bom_type =>
      if expect_types ≠ 0 ∧ expect_types &&& (1 <<< bom_type) = 0 then
        .error .unexpected_bom_type
      else
        .ok (bom_type, fp', input'')

/-- The function `bom_detect`: the name printed for the stream `fp`. -/
def bom_detect (fp : FILE) (expect_types : Nat) (prefer32 : Bool) : Except Fatal String :=
  match read_bom fp init_bom_input expect_types prefer32 with
  | .error e => .error e
  | .ok (bom_type, _, _) => .ok (bom_types_at bom_type).name

/-- The function `bom_print`: the bytes written to `stdout`, one `putchar` for
each `i < bt->len`. -/
def bom_print (bom_type : Nat) : List Byte :=
  let bt := bom_types_at bom_type
  (List.range bt.len).map fun i => bt.byte_at i

/-- The function `bom_list`: the lines written to `stdout`. -/
def bom_list : List String :=
  (List.range BOM_TYPE_MAX).map fun bom_type => (bom_types_at bom_type).name

/-- The function `bom_type_from_name`: the first index whose name compares
equal under `strcmp`. -/
def bom_type_from_name (name : String) : Except Fatal Nat :=
  match (List.range BOM_TYPE_MAX).find? fun bom_type => (bom_types_at bom_type).name == name with
  | some bom_type => .ok bom_type
  | none => .error .unknown_bom_type

/-! ## The conversion service and `bom_strip` -/

/-- The values of `errno` that `bom_strip` tells apart after `iconv` returned
`(size_t)-1`; `other` stands for every value besides `EINVAL` and `EILSEQ`
(`E2BIG` among them). -/
inductive iconv_errno where
  | EINVAL
  | EILSEQ
  | other
  deriving DecidableEq, Repr

/-- What one call `iconv(icd, &iptr, &iremain, &optr, &oremain)` did: the state
of the descriptor after the call, the number of input bytes taken (`iptr` has
advanced and `iremain` has dropped by it), the bytes stored at `optr`, and
`errno` when the call returned `(size_t)-1`. -/
structure iconv_result (σ : Type) where
  icd : σ
  consumed : Nat
  output : List Byte
  error : Option iconv_errno

/-- The system conversion service, with descriptors of type `σ`.
`iconv_open tocode fromcode` is `none` when it returns `(iconv_t)-1`.
`iconv icd inbuf oremain` gets the bytes at `iptr` (`none` when the `inbuf`
argument is `NULL`) and the room in the output buffer. -/
structure iconv_service (σ : Type) where
  iconv_open : String → String → Option σ
  iconv : σ → Option (List Byte) → Nat → iconv_result σ

/-- The call `fread(ptr, 1, n, fp)`, returning the bytes read and the stream
left.  The call reads up to `n` bytes and may return early with as few as one:
`cut` bounds the count by `cut + 1`.  It returns no byte only at the end of the
stream. -/
def fread (n cut : Nat) (fp : FILE) : List Byte × FILE :=
  (fp.take (min n (cut + 1)), fp.drop (min n (cut + 1)))

/-- The loop "Fill the input buffer" of `bom_strip`.  `ibuf` holds the
`ilen` bytes of the C buffer that are in use; `short` lists the cuts of the
coming `fread` calls (none once the list is used up).  The result is the cuts
left, the stream left, the buffer and the flag `eof`.  The first argument
bounds the number of iterations; `none` means that it was too small. -/
def fill_loop : Nat → List Nat → FILE → List Byte → Option (List Nat × FILE × List Byte × Bool)
  | 0, _, _, _ => none
  | fuel + 1, short, fp, ibuf =>
    if ibuf.length < BUFFER_SIZE then
      let n := BUFFER_SIZE - ibuf.length
      let (chunk, fp') := fread n (short.headD n) fp
      if chunk.length = 0 then
        some (short.tail, fp', ibuf, true)
      else
        fill_loop fuel short.tail fp' (ibuf ++ chunk)
    else
      some (short, fp, ibuf, false)

/-- The variables of `bom_strip` that live across the rounds of its main
loop: the stream, the cuts of the coming reads, the bytes `ibuf[0..ilen)`,
`offset`, the conversion descriptor, and what was written to `stdout`. -/
structure strip_state (σ : Type) where
  fp : FILE
  short : List Nat
  ibuf : List Byte
  offset : Nat
  icd : σ
  out : List Byte

/-- The end of a round of `bom_strip`, from "Update file offset" on: `iptr`
has advanced by `adv`, `iremain` bytes are left, `output` was stored in
`obuf`. -/
def finish_round {σ : Type} (s : strip_state σ) (short : List Nat) (fp : FILE)
    (ibuf : List Byte) (icd : σ) (adv iremain : Nat) (output : List Byte) : strip_state σ :=
  { fp := fp
    short := short
    ibuf := (ibuf.drop adv).take iremain           -- memmove(ibuf, iptr, iremain)
    offset := s.offset + (ibuf.length - iremain)
    icd := icd
    out := s.out ++ output }

/-- One round of the loop `while (!done)` of `bom_strip`: the state after the
round and the value of `done`, or the fatal ending.  `none` means that the
bound on the fill loop was too small (it never is, see `fill_loop_eq`). -/
def strip_round {σ : Type} (svc : iconv_service σ) (lenient utf8 : Bool) (s : strip_state σ) :
    Option (Except Fatal (strip_state σ × Bool)) :=
  match fill_loop (BUFFER_SIZE + 1) s.short s.fp s.ibuf with
  | none => none
  | some (short, fp, ibuf, eof) =>
    let ilen := ibuf.length
    let done : Bool := ilen = 0
    if utf8 then
      let r := svc.iconv s.icd (if !done then some ibuf else none) BUFFER_SIZE
      -- with a `NULL` input `iptr` and `iremain` stay as they are
      let adv := if !done then r.consumed else 0
      let iremain := ilen - adv
      match r.error with
      | none => some (.ok (finish_round s short fp ibuf r.icd adv iremain r.output, done))
      | some .EINVAL =>
        if !done && !eof then
          some (.ok (finish_round s short fp ibuf r.icd adv iremain r.output, done))
        else if lenient then
          some (.ok (finish_round s short fp ibuf r.icd (adv + iremain) 0 r.output, done))
        else
          some (.error (.illegal_bytes (s.offset + adv)))
      | some .EILSEQ =>
        if lenient then
          some (.ok (finish_round s short fp ibuf r.icd (adv + iremain) 0 r.output, done))
        else
          some (.error (.illegal_bytes (s.offset + adv)))
      | some .other => some (.error .iconv_failed)
    else
      some (.ok (finish_round s short fp ibuf s.icd (if !done then ilen else 0) 0 ibuf, done))

/-- The loop `while (!done)` of `bom_strip`, for at most the given number of
rounds; `none` when that number was too small. -/
def strip_loop {σ : Type} (svc : iconv_service σ) (lenient utf8 : Bool) :
    Nat → strip_state σ → Option (Except Fatal (strip_state σ))
  | 0, _ => none
  | fuel + 1, s =>
    match strip_round svc lenient utf8 s with
    | none => none
    | some (.error e) => some (.error e)
    | some (.ok (s', done)) =>
      if done then some (.ok s') else strip_loop svc lenient utf8 fuel s'

/-- The name built by `snprintf(tocode, ...)` in `bom_strip`. -/
def tocode (lenient : Bool) : String :=
  ((bom_types_at BOM_TYPE_UTF_8).encoding.getD "") ++ (if lenient then "//IGNORE" else "")

/-- The value `input.len - bt->len` of `bom_strip`, as the C `int` it is.
(`bom_strip` passes it to `memcpy`, which is only defined when it is not
negative; the model copies no byte for a negative value.) -/
def residue_len (input : bom_input) (bt : bom_type) : Int :=
  (input.len : Int) - (bt.len : Int)

/-- The function `bom_strip`: what is written to `stdout` when the run ends
normally, or the fatal ending.  `fuel` bounds the number of rounds of the main
loop and `none` means that it was too small.  A descriptor that was never
opened is `default`, as `iconv_t icd = 0` is. -/
def bom_strip {σ : Type} [Inhabited σ] (svc : iconv_service σ) (fuel : Nat) (fp : FILE)
    (short : List Nat) (expect_types : Nat) (lenient prefer32 utf8 : Bool) :
    Option (Except Fatal (List Byte)) :=
  match read_bom fp init_bom_input expect_types prefer32 with
  | .error e => some (.error e)
  | .ok (bom_type, fp', input) =>
    let bt := bom_types_at bom_type
    let utf8 := if bom_type = BOM_TYPE_NONE then false else utf8
    let opened : Option σ :=
      if utf8 then svc.iconv_open (tocode lenient) (bt.encoding.getD "") else some default
    match opened with
    | none => some (.error .iconv_open_failed)
    | some icd =>
      let ilen := (residue_len input bt).toNat
      let s : strip_state σ :=
        { fp := fp'
          short := short
          ibuf := (input.buf.drop bt.len).take ilen   -- memcpy(ibuf, input.buf + bt->len, ilen)
          offset := bt.len
          icd := icd
          out := [] }
      match strip_loop svc lenient utf8 fuel s with
      | none => none
      | some (.error e) => some (.error e)
      | some (.ok s') => some (.ok s'.out)

/-! ## A conversion service for UTF-8 to UTF-8

The system service is not part of the program.  The definitions of this
section describe the behaviour that is assumed of it where a statement needs
one: from UTF-8 to UTF-8 it copies the complete sequences at the front of its
input, and reports `EINVAL` when a truncated sequence is left at the end. -/

/-- Length of the UTF-8 sequence that starts with the byte `b`, and 0 when no
sequence starts with `b`. -/
def utf8_seq_len (b : Byte) : Nat :=
  if b.val < 0x80 then 1
  else if 0xc2 ≤ b.val ∧ b.val ≤ 0xdf then 2
  else if 0xe0 ≤ b.val ∧ b.val ≤ 0xef then 3
  else if 0xf0 ≤ b.val ∧ b.val ≤ 0xf4 then 4
  else 0

/-- Whether `c` may stand at position `i` (counted from 1) of a sequence
that starts with the byte `b`. -/
def utf8_trail_ok (b : Byte) (i : Nat) (c : Byte) : Bool :=
  if i = 1 then
    if b = 0xe0 then decide (0xa0 ≤ c.val ∧ c.val ≤ 0xbf)
    else if b = 0xed then decide (0x80 ≤ c.val ∧ c.val ≤ 0x9f)
    else if b = 0xf0 then decide (0x90 ≤ c.val ∧ c.val ≤ 0xbf)
    else if b = 0xf4 then decide (0x80 ≤ c.val ∧ c.val ≤ 0x8f)
    else decide (0x80 ≤ c.val ∧ c.val ≤ 0xbf)
  else decide (0x80 ≤ c.val ∧ c.val ≤ 0xbf)

/-- Whether the bytes `cs` may stand at the positions `i`, `i + 1`, ... of a
sequence that starts with `b`. -/
def utf8_trail_all (b : Byte) : Nat → List Byte → Bool
  | _, [] => true
  | i, c :: cs => utf8_trail_ok b i c && utf8_trail_all b (i + 1) cs

/-- Scan of a buffer: the number of bytes in the complete well-formed
sequences at its front, and what stopped the scan: nothing (end of the
buffer), `EINVAL` (a truncated sequence ends the buffer) or `EILSEQ` (bytes
that start no well-formed sequence).  The first argument bounds the number of
sequences; the length of the buffer is enough. -/
def utf8_scan : Nat → List Byte → Nat × Option iconv_errno
  | 0, _ => (0, none)
  | _ + 1, [] => (0, none)
  | fuel + 1, b :: rest =>
    let n := utf8_seq_len b
    if n = 0 then (0, some .EILSEQ)
    else if !utf8_trail_all b 1 (rest.take (n - 1)) then (0, some .EILSEQ)
    else if rest.length < n - 1 then (0, some .EINVAL)
    else
      let r := utf8_scan fuel (rest.drop (n - 1))
      (n + r.1, r.2)

/-- Scan of a whole buffer. -/
def utf8_buf_scan (buf : List Byte) : Nat × Option iconv_errno :=
  utf8_scan buf.length buf

/-- Well-formed UTF-8 text: the scan takes every byte. -/
def valid_utf8 (text : List Byte) : Prop :=
  utf8_buf_scan text = (text.length, none)

instance (text : List Byte) : Decidable (valid_utf8 text) := by
  unfold valid_utf8; infer_instance

/-- A conversion service from UTF-8 to UTF-8 (with or without `//IGNORE`),
without state: `iconv` copies the complete sequences at the front of its
input, and a `NULL` input does nothing. -/
def utf8_copy : iconv_service Unit :=
  { iconv_open := fun tocode fromcode =>
      if fromcode = "UTF-8" ∧ (tocode = "UTF-8" ∨ tocode = "UTF-8//IGNORE") then some ()
      else none
    iconv := fun _ inbuf oremain =>
      match inbuf with
      | none => { icd := (), consumed := 0, output := [], error := none }
      | some buf =>
        let r := utf8_buf_scan buf
        if oremain < r.1 then { icd := (), consumed := 0, output := [], error := some .other }
        else { icd := (), consumed := r.1, output := buf.take r.1, error := r.2 } }

/-- What claim C10 assumes of the conversion service: it opens a descriptor
from UTF-8 to the name `bom_strip` builds; on a buffer that holds complete
well-formed sequences followed by at most a truncated one it takes and copies
the complete sequences, and reports `EINVAL` exactly when a truncated one is
left; and a `NULL` input produces no output and no error. -/
def copies_utf8 {σ : Type} (svc : iconv_service σ) : Prop :=
  (∀ lenient, (svc.iconv_open (tocode lenient) "UTF-8").isSome = true)
  ∧ (∀ icd buf, buf ≠ [] → buf.length ≤ BUFFER_SIZE →
      (utf8_buf_scan buf).2 ≠ some .EILSEQ →
      (svc.iconv icd (some buf) BUFFER_SIZE).consumed = (utf8_buf_scan buf).1
      ∧ (svc.iconv icd (some buf) BUFFER_SIZE).output = buf.take (utf8_buf_scan buf).1
      ∧ (svc.iconv icd (some buf) BUFFER_SIZE).error = (utf8_buf_scan buf).2)
  ∧ (∀ icd, (svc.iconv icd none BUFFER_SIZE).output = []
      ∧ (svc.iconv icd none BUFFER_SIZE).error = none)

/-! ## A conversion service for UTF-16LE to UTF-8

A second stand-in for the system service, for text of the Basic Multilingual
Plane: it converts the 16-bit code units at the front of its input for as long
as the output buffer has room, and reports `E2BIG`, which `bom_strip` treats as
any other error, when the next one does not fit. -/

/-- The byte sequence of catalog entry `i`. -/
def sig (i : Nat) : List Byte := (bom_types_at i).bytes

/-- Match state of a signature with bytes `s` once the bytes `fed` were fed:
complete when `s` is a prefix of `fed`, prefix when `fed` is a strict prefix of
`s`, failed otherwise. -/
def match_of (s fed : List Byte) : Nat :=
  if s <+: fed then MATCH_COMPLETE
  else if fed <+: s then MATCH_PREFIX
  else MATCH_FAILED

/-- The list of the match states of the catalog once `fed` was fed. -/
def states_of (fed : List Byte) : List Nat :=
  bom_types.map fun bt => match_of bt.bytes fed

/-- The `bom_input` reached from `init_bom_input` by feeding the bytes `fed`. -/
def fed_input (fed : List Byte) : bom_input :=
  { buf := fed ++ List.replicate (BUFFER_SIZE - fed.length) 0
    len := fed.length
    num_complete := ((states_of fed).count MATCH_COMPLETE : Nat)
    num_finished := (states_of fed).countP (fun s => s != MATCH_PREFIX)
    match_state := states_of fed }

/-- State of one signature after one more byte: the transition made by
`read_byte_update`. -/
def next_state (s : List Byte) (len : Nat) (ch : Byte) (st : Nat) : Nat :=
  if st = MATCH_PREFIX then
    if s.getD len 0 ≠ ch then MATCH_FAILED
    else if s.length = len + 1 then MATCH_COMPLETE
    else MATCH_PREFIX
  else st

/-- The record produced by `read_byte_update` when the state it reads is a
valid one. -/
def updated (ch : Byte) (input : bom_input) (i : Nat) : bom_input :=
  let st := input.match_state.getD i 0
  let st' := next_state (sig i) input.len ch st
  { input with
    match_state := input.match_state.set i st'
    num_finished := input.num_finished + (if st = MATCH_PREFIX ∧ st' ≠ MATCH_PREFIX then 1 else 0)
    num_complete := input.num_complete + (if st = MATCH_PREFIX ∧ st' = MATCH_COMPLETE then 1 else 0) }

/-- Number of bytes the loop of `read_bom` takes from the stream `x` when
the bytes `fed` were fed before: it stops after the first byte that leaves no
signature in the prefix state, or at the end of the stream. -/
def feed_count : List Byte → List Byte → Nat
  | [], _ => 0
  | ch :: x, fed =>
    if (fed_input (fed ++ [ch])).num_finished = BOM_TYPE_MAX then 1
    else feed_count x (fed ++ [ch]) + 1

/-- The BOM type of a stream `x`, read off the prefix relation: the catalog
signature that is a prefix of `x`, with the UTF-16LE / UTF-32LE overlap decided
by `prefer32`, and `BOM_TYPE_NONE` when no signature is a prefix. -/
def resolved (x : List Byte) (prefer32 : Bool) : Nat :=
  if sig BOM_TYPE_UTF_32LE <+: x then
    (if prefer32 then BOM_TYPE_UTF_32LE else BOM_TYPE_UTF_16LE)
  else if sig BOM_TYPE_UTF_7 <+: x then BOM_TYPE_UTF_7
  else if sig BOM_TYPE_UTF_8 <+: x then BOM_TYPE_UTF_8
  else if sig BOM_TYPE_UTF_16BE <+: x then BOM_TYPE_UTF_16BE
  else if sig BOM_TYPE_UTF_16LE <+: x then BOM_TYPE_UTF_16LE
  else if sig BOM_TYPE_UTF_32BE <+: x then BOM_TYPE_UTF_32BE
  else if sig BOM_TYPE_GB18030 <+: x then BOM_TYPE_GB18030
  else BOM_TYPE_NONE

/-- The call of `iconv` made by `bom_strip` in a round that starts in state
`s` and whose buffer holds `ibuf` after the fill: the input is `NULL` when the
buffer is empty (`done` is set). -/
def round_iconv {σ : Type} (svc : iconv_service σ) (s : strip_state σ) (ibuf : List Byte) :
    iconv_result σ :=
  svc.iconv s.icd (if ibuf = [] then none else some ibuf) BUFFER_SIZE

/-- A matching session outside `read_bom`: `read_byte` is called once for
each byte of `b`, in order, none of the calls being at the end of the input. -/
def feed_bytes : List Byte → bom_input → Except Fatal bom_input
  | [], input => .ok input
  | ch :: b, input =>
    match read_byte (some ch) input with
    | .error e => .error e
    | .ok (_, input') => feed_bytes b input'

/-- The state of signature `i` in `input`: the cell `input->match_state[i]`. -/
def state_of (input : bom_input) (i : Nat) : Nat :=
  input.match_state.getD i 0

/-- The counters and the buffer of `input` agree with its states and with the
bytes `fed`: `num_complete` is the number of signatures whose state is
complete, `num_finished` the number of those whose state is not prefix, `len`
the number of bytes fed, and `buf[0..len)` holds the bytes fed, in order. -/
def input_agrees (input : bom_input) (fed : List Byte) : Prop :=
  input.num_complete
      = (((List.range BOM_TYPE_MAX).filter fun i => state_of input i = MATCH_COMPLETE).length : Nat)
  ∧ input.num_finished
      = ((List.range BOM_TYPE_MAX).filter fun i => state_of input i ≠ MATCH_PREFIX).length
  ∧ input.len = fed.length
  ∧ input.buf.take input.len = fed

/-- The buffer `ibuf[0..ilen)` after the fill of the round of `bom_strip`
that starts in state `s`. -/
def round_buffer {σ : Type} (s : strip_state σ) : List Byte :=
  match fill_loop (BUFFER_SIZE + 1) s.short s.fp s.ibuf with
  | some (_, _, ibuf, _) => ibuf
  | none => []

/-- The flag `eof` after the fill of the round that starts in state `s`. -/
def round_eof {σ : Type} (s : strip_state σ) : Bool :=
  match fill_loop (BUFFER_SIZE + 1) s.short s.fp s.ibuf with
  | some (_, _, _, eof) => eof
  | none => false

/-- The bytes that the call of `iconv` takes in the round that starts in state
`s`: the bytes of the buffer that `iptr` has passed, none with a `NULL`
input. -/
def round_consumed {σ : Type} (svc : iconv_service σ) (s : strip_state σ) : List Byte :=
  if round_buffer s = [] then []
  else (round_buffer s).take (round_iconv svc s (round_buffer s)).consumed

/-- Whether the round that starts in state `s` escalates: the service reports
`EILSEQ`, or it reports `EINVAL` while `done` or `eof` is set. -/
def round_escalates {σ : Type} (svc : iconv_service σ) (s : strip_state σ) : Bool :=
  match (round_iconv svc s (round_buffer s)).error with
  | some .EILSEQ => true
  | some .EINVAL => decide (round_buffer s = []) || round_eof s
  | _ => false

/-- The byte ranges taken by the successive calls of `iconv` in the rounds of
the main loop of `bom_strip` with conversion from state `s`, in order, for at
most the given number of rounds: the states are those `strip_round` produces,
and the list stops with the round in which the loop ends, normally or with a
fatal error. -/
def run_ranges {σ : Type} (svc : iconv_service σ) (lenient : Bool) :
    Nat → strip_state σ → List (List Byte)
  | 0, _ => []
  | fuel + 1, s =>
    round_consumed svc s ::
      match strip_round svc lenient true s with
      | some (.ok (s', false)) => run_ranges svc lenient fuel s'
      | _ => []

/-- Whether one of the rounds that `run_ranges` lists escalates. -/
def run_escalates {σ : Type} (svc : iconv_service σ) (lenient : Bool) :
    Nat → strip_state σ → Bool
  | 0, _ => false
  | fuel + 1, s =>
    round_escalates svc s ||
      match strip_round svc lenient true s with
      | some (.ok (s', false)) => run_escalates svc lenient fuel s'
      | _ => false

/-- The value of `iptr - ibuf` after the call of `iconv` in the round that
starts in state `s`: the number of bytes the call has taken, and 0 when the
input was `NULL`, which leaves `iptr` at `ibuf`. -/
def round_adv {σ : Type} (svc : iconv_service σ) (s : strip_state σ) : Nat :=
  if round_buffer s = [] then 0 else (round_iconv svc s (round_buffer s)).consumed

/-- The state at the start of round `k` (counted from 0) of the main loop of
`bom_strip` started in state `s`: the states are those `strip_round` produces.
The result is `none` when the loop has ended before that round. -/
def round_start {σ : Type} (svc : iconv_service σ) (lenient utf8 : Bool) :
    Nat → strip_state σ → Option (strip_state σ)
  | 0, s => some s
  | k + 1, s =>
    match strip_round svc lenient utf8 s with
    | some (.ok (s', false)) => round_start svc lenient utf8 k s'
    | _ => none

/-! ## Lemmas on the prefix matcher -/

theorem set_getD_self (l : List Nat) (i : Nat) : l.set i (l.getD i 0) = l := by
  induction l generalizing i with
  | nil => simp
  | cons a l ih =>
    cases i with
    | zero => simp
    | succ i => simpa using ih i

theorem len_eq_length (i : Nat) : (bom_types_at i).len = (sig i).length := by
  unfold sig bom_types_at bom_types
  rcases i with _ | _ | _ | _ | _ | _ | _ | _ | i <;> simp [BOM_TYPE]
  rfl

theorem read_byte_update_eq (ch : Byte) (input : bom_input) (i : Nat)
    (h : input.match_state.getD i 0 ≤ 2) :
    read_byte_update ch input i = .ok (updated ch input i) := by
  unfold read_byte_update updated next_state
  simp only [len_eq_length, bom_type.byte_at, MATCH_PREFIX, MATCH_COMPLETE, MATCH_FAILED]
  have hs : input.match_state.getD i 0 = 0 ∨ input.match_state.getD i 0 = 1
      ∨ input.match_state.getD i 0 = 2 := by omega
  have hset := set_getD_self input.match_state i
  rcases hs with h0 | h0 | h0 <;> rw [h0] at hset <;> simp only [h0, sig]
  · split_ifs <;> simp_all
  · simp [hset]
  · simp [hset]

theorem match_of_le (s fed : List Byte) : match_of s fed ≤ 2 := by
  unfold match_of MATCH_COMPLETE MATCH_PREFIX MATCH_FAILED
  split_ifs <;> omega

theorem match_of_complete_iff (s fed : List Byte) :
    match_of s fed = MATCH_COMPLETE ↔ s <+: fed := by
  unfold match_of MATCH_COMPLETE MATCH_PREFIX MATCH_FAILED
  split_ifs <;> simp_all

theorem match_of_prefix_iff (s fed : List Byte) :
    match_of s fed = MATCH_PREFIX ↔ fed <+: s ∧ fed.length < s.length := by
  unfold match_of MATCH_COMPLETE MATCH_PREFIX MATCH_FAILED
  split_ifs with h1 h2
  · have := h1.length_le
    simp; intro _; omega
  · simp only [h2, true_and, true_iff]
    rcases Nat.lt_or_ge fed.length s.length with h | h
    · exact h
    · have := h2.length_le
      have e := h2.eq_of_length (by omega)
      exact absurd (e ▸ List.prefix_refl _) h1
  · simp [h2]

/-- One more byte moves the closed-form state of a signature as `read_byte`
does. -/
theorem next_state_match_of (s fed : List Byte) (ch : Byte) :
    next_state s fed.length ch (match_of s fed) = match_of s (fed ++ [ch]) := by
  by_cases hc : s <+: fed
  · have h1 : match_of s fed = MATCH_COMPLETE := (match_of_complete_iff _ _).2 hc
    have h2 : match_of s (fed ++ [ch]) = MATCH_COMPLETE :=
      (match_of_complete_iff _ _).2 (hc.trans (List.prefix_append _ _))
    rw [h1, h2]; simp [next_state, MATCH_COMPLETE, MATCH_PREFIX]
  · by_cases hp : fed <+: s
    · obtain ⟨r, rfl⟩ := hp
      cases r with
      | nil => simp at hc
      | cons c r =>
        have h1 : match_of (fed ++ c :: r) fed = MATCH_PREFIX :=
          (match_of_prefix_iff _ _).2 ⟨List.prefix_append _ _, by simp⟩
        rw [h1]
        simp only [next_state, if_true]
        have hg : (fed ++ c :: r).getD fed.length 0 = c := by
          clear hc h1
          induction fed with
          | nil => simp
          | cons a fed ih => simpa using ih
        rw [hg]
        by_cases hch : c = ch
        · subst hch
          simp only [ne_eq, not_true_eq_false, if_false]
          cases r with
          | nil =>
            simp only [List.length_append, List.length_cons, List.length_nil, if_true]
            exact ((match_of_complete_iff _ _).2 (List.prefix_refl _)).symm
          | cons d r =>
            have : ¬ ((fed ++ c :: d :: r).length = fed.length + 1) := by simp
            rw [if_neg this]
            exact ((match_of_prefix_iff _ _).2 ⟨by simp, by simp⟩).symm
        · simp only [ne_eq, hch, not_false_eq_true, if_true]
          unfold match_of
          have n1 : ¬ (fed ++ c :: r <+: fed ++ [ch]) := by
            simp [hch]
          have n2 : ¬ (fed ++ [ch] <+: fed ++ c :: r) := by
            simp [Ne.symm hch]
          rw [if_neg n1, if_neg n2]
    · have h1 : match_of s fed = MATCH_FAILED := by
        unfold match_of; rw [if_neg hc, if_neg hp]
      have n1 : ¬ (s <+: fed ++ [ch]) := by
        rw [List.prefix_concat_iff]
        rintro (e | e)
        · exact hp (e ▸ List.prefix_append _ _)
        · exact hc e
      have n2 : ¬ (fed ++ [ch] <+: s) := fun e => hp ((List.prefix_append _ _).trans e)
      have h2 : match_of s (fed ++ [ch]) = MATCH_FAILED := by
        unfold match_of; rw [if_neg n1, if_neg n2]
      rw [h1, h2]; simp [next_state, MATCH_FAILED, MATCH_PREFIX]

theorem set_length_append (fed r : List Byte) (a ch : Byte) :
    (fed ++ a :: r).set fed.length ch = fed ++ ch :: r := by
  induction fed with
  | nil => simp
  | cons b fed ih => simp

theorem buf_step (fed : List Byte) (ch : Byte) (h : fed.length < BUFFER_SIZE) :
    (fed ++ List.replicate (BUFFER_SIZE - fed.length) 0).set fed.length ch
      = fed ++ [ch] ++ List.replicate (BUFFER_SIZE - (fed ++ [ch]).length) 0 := by
  obtain ⟨k, hk⟩ : ∃ k, BUFFER_SIZE - fed.length = k + 1 := ⟨BUFFER_SIZE - fed.length - 1, by omega⟩
  have hk2 : BUFFER_SIZE - (fed ++ [ch]).length = k := by simp; omega
  rw [hk, hk2, List.replicate_succ, set_length_append]
  simp

theorem complete_step (s fed : List Byte) (ch : Byte) :
    (if (match_of s (fed ++ [ch]) == MATCH_COMPLETE) = true then 1 else 0 : Nat)
      = (if (match_of s fed == MATCH_COMPLETE) = true then 1 else 0)
        + (if match_of s fed = MATCH_PREFIX ∧ match_of s (fed ++ [ch]) = MATCH_COMPLETE
            then 1 else 0) := by
  rw [← next_state_match_of]
  have hm := match_of_le s fed
  generalize match_of s fed = m at hm
  unfold next_state MATCH_COMPLETE MATCH_PREFIX MATCH_FAILED
  have hs : m = 0 ∨ m = 1 ∨ m = 2 := by omega
  rcases hs with rfl | rfl | rfl <;> simp

theorem finished_step (s fed : List Byte) (ch : Byte) :
    (if (match_of s (fed ++ [ch]) != MATCH_PREFIX) = true then 1 else 0 : Nat)
      = (if (match_of s fed != MATCH_PREFIX) = true then 1 else 0)
        + (if match_of s fed = MATCH_PREFIX ∧ match_of s (fed ++ [ch]) ≠ MATCH_PREFIX
            then 1 else 0) := by
  rw [← next_state_match_of]
  have hm := match_of_le s fed
  generalize match_of s fed = m at hm
  unfold next_state MATCH_COMPLETE MATCH_PREFIX MATCH_FAILED
  have hs : m = 0 ∨ m = 1 ∨ m = 2 := by omega
  rcases hs with rfl | rfl | rfl <;> simp

theorem states_of_eq (fed : List Byte) : states_of fed =
    [match_of (sig 0) fed, match_of (sig 1) fed, match_of (sig 2) fed, match_of (sig 3) fed,
     match_of (sig 4) fed, match_of (sig 5) fed, match_of (sig 6) fed, match_of (sig 7) fed] := by
  rfl

theorem read_byte_fed (ch : Byte) (fed : List Byte) (h : fed.length < BUFFER_SIZE) :
    read_byte (some ch) (fed_input fed) = .ok (true, fed_input (fed ++ [ch])) := by
  have hr : List.range BOM_TYPE_MAX = [0, 1, 2, 3, 4, 5, 6, 7] := by decide
  have hlen : (fed_input fed).len = fed.length := rfl
  unfold read_byte
  simp only [ge_iff_le, hlen, not_le.mpr h, if_false, hr]
  simp only [List.foldlM, bind, Except.bind]
  rw [read_byte_update_eq ch _ 0 (by simp [fed_input, states_of_eq, match_of_le])]
  simp only []
  rw [read_byte_update_eq ch _ 1 (by simp [fed_input, updated, states_of_eq, match_of_le])]
  simp only []
  rw [read_byte_update_eq ch _ 2 (by simp [fed_input, updated, states_of_eq, match_of_le])]
  simp only []
  rw [read_byte_update_eq ch _ 3 (by simp [fed_input, updated, states_of_eq, match_of_le])]
  simp only []
  rw [read_byte_update_eq ch _ 4 (by simp [fed_input, updated, states_of_eq, match_of_le])]
  simp only []
  rw [read_byte_update_eq ch _ 5 (by simp [fed_input, updated, states_of_eq, match_of_le])]
  simp only []
  rw [read_byte_update_eq ch _ 6 (by simp [fed_input, updated, states_of_eq, match_of_le])]
  simp only []
  rw [read_byte_update_eq ch _ 7 (by simp [fed_input, updated, states_of_eq, match_of_le])]
  simp only [pure, Except.pure]
  congr 2
  simp only [updated, fed_input, states_of_eq, List.getD_cons_zero, List.getD_cons_succ, List.set_cons_zero, List.set_cons_succ, next_state_match_of]
  congr 1
  · exact buf_step fed ch h
  · simp
  · simp only [List.count_cons, List.count_nil, complete_step _ fed ch]
    push_cast
    ring
  · simp only [List.countP_cons, List.countP_nil, finished_step _ fed ch]
    ring

theorem init_eq_fed_input : init_bom_input = fed_input [] := by
  rfl

/-- The loop of `read_bom` in closed form. -/
theorem read_bom_loop_fed (x fed : List Byte)
    (h : fed.length + feed_count x fed ≤ BUFFER_SIZE) :
    read_bom_loop x (fed_input fed)
      = .ok (x.drop (feed_count x fed), fed_input (fed ++ x.take (feed_count x fed))) := by
  induction x generalizing fed with
  | nil => simp [read_bom_loop, read_byte, feed_count]
  | cons ch x ih =>
    have hlt : fed.length < BUFFER_SIZE := by
      unfold feed_count at h
      split_ifs at h <;> omega
    rw [read_bom_loop, read_byte_fed ch fed hlt]
    simp only []
    by_cases hf : (fed_input (fed ++ [ch])).num_finished = BOM_TYPE_MAX
    · simp [feed_count, hf]
    · have h2 : (fed ++ [ch]).length + feed_count x (fed ++ [ch]) ≤ BUFFER_SIZE := by
        simp only [feed_count, if_neg hf] at h
        simp only [List.length_append, List.length_singleton]
        omega
      rw [if_neg hf, ih _ h2]
      simp [feed_count, hf]

theorem feed_count_le_length (x fed : List Byte) : feed_count x fed ≤ x.length := by
  induction x generalizing fed with
  | nil => simp [feed_count]
  | cons ch x ih =>
    unfold feed_count
    split_ifs
    · simp
    · have := ih (fed ++ [ch]); simp only [List.length_cons]; omega

theorem sig_length_le (i : Nat) : (sig i).length ≤ 4 := by
  unfold sig bom_types_at bom_types
  rcases i with _ | _ | _ | _ | _ | _ | _ | _ | i <;> simp [BOM_TYPE]
  decide

theorem num_finished_eq_max_iff (fed : List Byte) :
    (fed_input fed).num_finished = BOM_TYPE_MAX
      ↔ ∀ i, i < BOM_TYPE_MAX → match_of (sig i) fed ≠ MATCH_PREFIX := by
  have hl : BOM_TYPE_MAX = (states_of fed).length := by rfl
  simp only [fed_input]
  rw [hl, List.countP_eq_length, ← hl, states_of_eq]
  simp only [List.mem_cons, List.mem_singleton, bne_iff_ne, ne_eq, BOM_TYPE_MAX]
  constructor
  · intro h i hi
    have : i = 0 ∨ i = 1 ∨ i = 2 ∨ i = 3 ∨ i = 4 ∨ i = 5 ∨ i = 6 ∨ i = 7 := by omega
    rcases this with rfl | rfl | rfl | rfl | rfl | rfl | rfl | rfl <;> apply h <;> simp
  · intro h a ha
    rcases ha with rfl | rfl | rfl | rfl | rfl | rfl | rfl | ha
    · exact h 0 (by omega)
    · exact h 1 (by omega)
    · exact h 2 (by omega)
    · exact h 3 (by omega)
    · exact h 4 (by omega)
    · exact h 5 (by omega)
    · exact h 6 (by omega)
    · simp at ha; subst ha; exact h 7 (by omega)

theorem num_finished_of_four (fed : List Byte) (h : 4 ≤ fed.length) :
    (fed_input fed).num_finished = BOM_TYPE_MAX := by
  rw [num_finished_eq_max_iff]
  intro i _ hp
  have := ((match_of_prefix_iff _ _).1 hp).2
  have := sig_length_le i
  omega

theorem feed_count_le (x fed : List Byte) : fed.length + feed_count x fed ≤ max 4 (fed.length + 1) := by
  induction x generalizing fed with
  | nil => simp [feed_count]
  | cons ch x ih =>
    unfold feed_count
    split_ifs with hf
    · omega
    · have h3 : (fed ++ [ch]).length < 4 := by
        by_contra hc
        exact hf (num_finished_of_four _ (by omega))
      have := ih (fed ++ [ch])
      simp only [List.length_append, List.length_singleton] at this h3
      omega

theorem feed_count_nil_le (x : List Byte) : feed_count x [] ≤ 4 := by
  have := feed_count_le x []
  simpa using this

/-- When the loop stops, the stream is at its end or no signature is in the
prefix state. -/
theorem feed_count_stop (x fed : List Byte) :
    feed_count x fed = x.length
      ∨ (fed_input (fed ++ x.take (feed_count x fed))).num_finished = BOM_TYPE_MAX := by
  induction x generalizing fed with
  | nil => simp [feed_count]
  | cons ch x ih =>
    unfold feed_count
    split_ifs with hf
    · right; simpa using hf
    · rcases ih (fed ++ [ch]) with h | h
      · left; simp [h]
      · right; simpa using h

/-- A signature is a prefix of the stream exactly when it is a prefix of
the bytes the loop has taken. -/
theorem prefix_take_feed_count (x : List Byte) (i : Nat) :
    sig i <+: x.take (feed_count x []) ↔ sig i <+: x := by
  constructor
  · intro h
    exact h.trans (List.take_prefix _ _)
  · intro h
    rw [List.prefix_take_iff]
    refine ⟨h, ?_⟩
    by_contra hlt
    have hn := feed_count_le_length x []
    have hlen : (x.take (feed_count x [])).length = feed_count x [] := by
      simp [hn]
    have hp : match_of (sig i) (x.take (feed_count x [])) = MATCH_PREFIX := by
      rw [match_of_prefix_iff]
      refine ⟨?_, by omega⟩
      exact List.prefix_of_prefix_length_le (List.take_prefix _ _) h (by omega)
    rcases feed_count_stop x [] with hs | hs
    · have := h.length_le
      omega
    · simp only [List.nil_append] at hs
      rw [num_finished_eq_max_iff] at hs
      have hi : i < BOM_TYPE_MAX := by
        by_contra hge
        have : sig i = [] := by
          unfold sig bom_types_at bom_types BOM_TYPE_MAX at *
          rcases i with _ | _ | _ | _ | _ | _ | _ | _ | i
          all_goals first | omega | rfl
        rw [this] at hlt
        simp at hlt
      exact hs i hi hp

/-- Two different signatures other than the sentinel are prefixes of the same
bytes only when they are UTF-16LE and UTF-32LE. -/
theorem prefix_exclusive (fed : List Byte) (i j : Nat) (hi : 1 ≤ i ∧ i < 8) (hj : 1 ≤ j ∧ j < 8)
    (hij : i ≠ j) (h46 : ¬ (i = 4 ∧ j = 6)) (h64 : ¬ (i = 6 ∧ j = 4))
    (h1 : sig i <+: fed) (h2 : sig j <+: fed) : False := by
  have h := List.prefix_or_prefix_of_prefix h1 h2
  obtain ⟨hi1, hi2⟩ := hi
  obtain ⟨hj1, hj2⟩ := hj
  interval_cases i <;> interval_cases j <;> first | omega | (revert h; decide)

theorem utf16le_of_utf32le (fed : List Byte) (h : sig 6 <+: fed) : sig 4 <+: fed :=
  List.IsPrefix.trans (by decide) h

theorem find_complete_eq (input : bom_input) :
    find_complete input 8 0 =
      if input.match_state.getD 1 0 = MATCH_COMPLETE then 1
      else if input.match_state.getD 2 0 = MATCH_COMPLETE then 2
      else if input.match_state.getD 3 0 = MATCH_COMPLETE then 3
      else if input.match_state.getD 4 0 = MATCH_COMPLETE then 4
      else if input.match_state.getD 5 0 = MATCH_COMPLETE then 5
      else if input.match_state.getD 6 0 = MATCH_COMPLETE then 6
      else if input.match_state.getD 7 0 = MATCH_COMPLETE then 7
      else 8 := by
  simp only [find_complete, BOM_TYPE_NONE, ne_eq, not_true_eq_false, false_and,
    if_false, Nat.reduceAdd, Nat.succ_ne_zero, one_ne_zero, not_false_eq_true, true_and,
    OfNat.ofNat_ne_zero]

set_option maxHeartbeats 4000000 in
/-- The disambiguation step and the choice of the BOM type, on the state
reached by feeding `fed`: the type chosen is `resolved fed p`, the sentinel is
complete, `num_complete` is 1 or 2, and the one signature other than the
sentinel that is complete is the type chosen. -/
theorem resolve_fed (fed : List Byte) (p : Bool) :
    select_bom_type (disambiguate (fed_input fed) p) = .ok (resolved fed p)
    ∧ (disambiguate (fed_input fed) p).match_state.getD 0 0 = MATCH_COMPLETE
    ∧ (disambiguate (fed_input fed) p).num_complete = (if resolved fed p = 0 then 1 else 2)
    ∧ ∀ j, 1 ≤ j → j < 8 →
        ((disambiguate (fed_input fed) p).match_state.getD j 0 = MATCH_COMPLETE
          ↔ j = resolved fed p) := by
  have e := prefix_exclusive fed
  have c : ∀ i, match_of (sig i) fed = 1 ↔ sig i <+: fed :=
    fun i => match_of_complete_iff (sig i) fed
  have c0 := c 0
  have c1 := c 1
  have c2 := c 2
  have c3 := c 3
  have c4 := c 4
  have c5 := c 5
  have c6 := c 6
  have c7 := c 7
  have h0 : sig 0 <+: fed := by simp [sig, bom_types_at, bom_types, BOM_TYPE]
  by_cases h6 : sig 6 <+: fed
  · have h4 := utf16le_of_utf32le fed h6
    have n1 : ¬ sig 1 <+: fed := fun h => e 1 6 (by omega) (by omega) (by omega) (by omega) (by omega) h h6
    have n2 : ¬ sig 2 <+: fed := fun h => e 2 6 (by omega) (by omega) (by omega) (by omega) (by omega) h h6
    have n3 : ¬ sig 3 <+: fed := fun h => e 3 6 (by omega) (by omega) (by omega) (by omega) (by omega) h h6
    have n5 : ¬ sig 5 <+: fed := fun h => e 5 6 (by omega) (by omega) (by omega) (by omega) (by omega) h h6
    have n7 : ¬ sig 7 <+: fed := fun h => e 7 6 (by omega) (by omega) (by omega) (by omega) (by omega) h h6
    cases p
    · refine ⟨?_, ?_, ?_, fun j hj1 hj2 => ?_⟩
      on_goal 4 => interval_cases j
      all_goals simp [select_bom_type, disambiguate, find_complete_eq, resolved, fed_input, states_of_eq,
        BOM_TYPE_NONE, BOM_TYPE_UTF_7, BOM_TYPE_UTF_8, BOM_TYPE_UTF_16BE, BOM_TYPE_UTF_16LE,
        BOM_TYPE_UTF_32BE, BOM_TYPE_UTF_32LE, BOM_TYPE_GB18030, BOM_TYPE_MAX,
        List.count_cons, c0, c1, c2, c3, c4, c5, c6, c7, h0, h4, h6, n1, n2, n3, n5, n7,
        MATCH_FAILED, MATCH_COMPLETE]
    · refine ⟨?_, ?_, ?_, fun j hj1 hj2 => ?_⟩
      on_goal 4 => interval_cases j
      all_goals simp [select_bom_type, disambiguate, find_complete_eq, resolved, fed_input, states_of_eq,
        BOM_TYPE_NONE, BOM_TYPE_UTF_7, BOM_TYPE_UTF_8, BOM_TYPE_UTF_16BE, BOM_TYPE_UTF_16LE,
        BOM_TYPE_UTF_32BE, BOM_TYPE_UTF_32LE, BOM_TYPE_GB18030, BOM_TYPE_MAX,
        List.count_cons, c0, c1, c2, c3, c4, c5, c6, c7, h0, h4, h6, n1, n2, n3, n5, n7,
        MATCH_FAILED, MATCH_COMPLETE]
  · by_cases h1 : sig 1 <+: fed
    · have n2 : ¬ sig 2 <+: fed := fun h => e 2 1 (by omega) (by omega) (by omega) (by omega) (by omega) h h1
      have n3 : ¬ sig 3 <+: fed := fun h => e 3 1 (by omega) (by omega) (by omega) (by omega) (by omega) h h1
      have n4 : ¬ sig 4 <+: fed := fun h => e 4 1 (by omega) (by omega) (by omega) (by omega) (by omega) h h1
      have n5 : ¬ sig 5 <+: fed := fun h => e 5 1 (by omega) (by omega) (by omega) (by omega) (by omega) h h1
      have n7 : ¬ sig 7 <+: fed := fun h => e 7 1 (by omega) (by omega) (by omega) (by omega) (by omega) h h1
      refine ⟨?_, ?_, ?_, fun j hj1 hj2 => ?_⟩
      on_goal 4 => interval_cases j
      all_goals simp [select_bom_type, disambiguate, find_complete_eq, resolved, fed_input, states_of_eq,
        BOM_TYPE_NONE, BOM_TYPE_UTF_7, BOM_TYPE_UTF_8, BOM_TYPE_UTF_16BE, BOM_TYPE_UTF_16LE,
        BOM_TYPE_UTF_32BE, BOM_TYPE_UTF_32LE, BOM_TYPE_GB18030, BOM_TYPE_MAX,
        List.count_cons, c0, c1, c2, c3, c4, c5, c6, c7, h0, h1, h6, n2, n3, n4, n5, n7,
        MATCH_FAILED, MATCH_COMPLETE]
    · by_cases h2 : sig 2 <+: fed
      · have n3 : ¬ sig 3 <+: fed := fun h => e 3 2 (by omega) (by omega) (by omega) (by omega) (by omega) h h2
        have n4 : ¬ sig 4 <+: fed := fun h => e 4 2 (by omega) (by omega) (by omega) (by omega) (by omega) h h2
        have n5 : ¬ sig 5 <+: fed := fun h => e 5 2 (by omega) (by omega) (by omega) (by omega) (by omega) h h2
        have n7 : ¬ sig 7 <+: fed := fun h => e 7 2 (by omega) (by omega) (by omega) (by omega) (by omega) h h2
        refine ⟨?_, ?_, ?_, fun j hj1 hj2 => ?_⟩
        on_goal 4 => interval_cases j
        all_goals simp [select_bom_type, disambiguate, find_complete_eq, resolved, fed_input, states_of_eq,
          BOM_TYPE_NONE, BOM_TYPE_UTF_7, BOM_TYPE_UTF_8, BOM_TYPE_UTF_16BE, BOM_TYPE_UTF_16LE,
          BOM_TYPE_UTF_32BE, BOM_TYPE_UTF_32LE, BOM_TYPE_GB18030, BOM_TYPE_MAX,
          List.count_cons, c0, c1, c2, c3, c4, c5, c6, c7, h0, h2, h6, n3, n4, n5, n7, h1,
          MATCH_FAILED, MATCH_COMPLETE]
      · by_cases h3 : sig 3 <+: fed
        · have n4 : ¬ sig 4 <+: fed := fun h => e 4 3 (by omega) (by omega) (by omega) (by omega) (by omega) h h3
          have n5 : ¬ sig 5 <+: fed := fun h => e 5 3 (by omega) (by omega) (by omega) (by omega) (by omega) h h3
          have n7 : ¬ sig 7 <+: fed := fun h => e 7 3 (by omega) (by omega) (by omega) (by omega) (by omega) h h3
          refine ⟨?_, ?_, ?_, fun j hj1 hj2 => ?_⟩
          on_goal 4 => interval_cases j
          all_goals simp [select_bom_type, disambiguate, find_complete_eq, resolved, fed_input, states_of_eq,
            BOM_TYPE_NONE, BOM_TYPE_UTF_7, BOM_TYPE_UTF_8, BOM_TYPE_UTF_16BE, BOM_TYPE_UTF_16LE,
            BOM_TYPE_UTF_32BE, BOM_TYPE_UTF_32LE, BOM_TYPE_GB18030, BOM_TYPE_MAX,
            List.count_cons, c0, c1, c2, c3, c4, c5, c6, c7, h0, h3, h6, n4, n5, n7, h1, h2,
            MATCH_FAILED, MATCH_COMPLETE]
        · by_cases h4 : sig 4 <+: fed
          · have n5 : ¬ sig 5 <+: fed := fun h => e 5 4 (by omega) (by omega) (by omega) (by omega) (by omega) h h4
            have n7 : ¬ sig 7 <+: fed := fun h => e 7 4 (by omega) (by omega) (by omega) (by omega) (by omega) h h4
            refine ⟨?_, ?_, ?_, fun j hj1 hj2 => ?_⟩
            on_goal 4 => interval_cases j
            all_goals simp [select_bom_type, disambiguate, find_complete_eq, resolved, fed_input, states_of_eq,
              BOM_TYPE_NONE, BOM_TYPE_UTF_7, BOM_TYPE_UTF_8, BOM_TYPE_UTF_16BE, BOM_TYPE_UTF_16LE,
              BOM_TYPE_UTF_32BE, BOM_TYPE_UTF_32LE, BOM_TYPE_GB18030, BOM_TYPE_MAX,
              List.count_cons, c0, c1, c2, c3, c4, c5, c6, c7, h0, h4, h6, n5, n7, h1, h2, h3,
              MATCH_FAILED, MATCH_COMPLETE]
          · by_cases h5 : sig 5 <+: fed
            · have n7 : ¬ sig 7 <+: fed := fun h => e 7 5 (by omega) (by omega) (by omega) (by omega) (by omega) h h5
              refine ⟨?_, ?_, ?_, fun j hj1 hj2 => ?_⟩
              on_goal 4 => interval_cases j
              all_goals simp [select_bom_type, disambiguate, find_complete_eq, resolved, fed_input, states_of_eq,
                BOM_TYPE_NONE, BOM_TYPE_UTF_7, BOM_TYPE_UTF_8, BOM_TYPE_UTF_16BE, BOM_TYPE_UTF_16LE,
                BOM_TYPE_UTF_32BE, BOM_TYPE_UTF_32LE, BOM_TYPE_GB18030, BOM_TYPE_MAX,
                List.count_cons, c0, c1, c2, c3, c4, c5, c6, c7, h0, h5, h6, n7, h1, h2, h3, h4,
                MATCH_FAILED, MATCH_COMPLETE]
            · by_cases h7 : sig 7 <+: fed
              · refine ⟨?_, ?_, ?_, fun j hj1 hj2 => ?_⟩
                on_goal 4 => interval_cases j
                all_goals simp [select_bom_type, disambiguate, find_complete_eq, resolved, fed_input, states_of_eq,
                  BOM_TYPE_NONE, BOM_TYPE_UTF_7, BOM_TYPE_UTF_8, BOM_TYPE_UTF_16BE, BOM_TYPE_UTF_16LE,
                  BOM_TYPE_UTF_32BE, BOM_TYPE_UTF_32LE, BOM_TYPE_GB18030, BOM_TYPE_MAX,
                  List.count_cons, c0, c1, c2, c3, c4, c5, c6, c7, h0, h7, h6, h1, h2, h3, h4, h5,
                  MATCH_FAILED, MATCH_COMPLETE]
              · refine ⟨?_, ?_, ?_, fun j hj1 hj2 => ?_⟩
                on_goal 4 => interval_cases j
                all_goals simp [select_bom_type, disambiguate, find_complete_eq, resolved, fed_input, states_of_eq,
                  BOM_TYPE_NONE, BOM_TYPE_UTF_7, BOM_TYPE_UTF_8, BOM_TYPE_UTF_16BE, BOM_TYPE_UTF_16LE,
                  BOM_TYPE_UTF_32BE, BOM_TYPE_UTF_32LE, BOM_TYPE_GB18030, BOM_TYPE_MAX,
                  List.count_cons, c0, c1, c2, c3, c4, c5, c6, c7, h0, h6, h1, h2, h3, h4, h5, h7,
                  MATCH_FAILED, MATCH_COMPLETE]

theorem resolved_take (x : List Byte) (p : Bool) :
    resolved (x.take (feed_count x [])) p = resolved x p := by
  simp only [resolved, prefix_take_feed_count]

theorem resolved_lt (x : List Byte) (p : Bool) : resolved x p < BOM_TYPE_MAX := by
  unfold resolved BOM_TYPE_MAX BOM_TYPE_NONE BOM_TYPE_UTF_7 BOM_TYPE_UTF_8 BOM_TYPE_UTF_16BE
    BOM_TYPE_UTF_16LE BOM_TYPE_UTF_32BE BOM_TYPE_UTF_32LE BOM_TYPE_GB18030
  split_ifs <;> omega

/-- The function `read_bom` in closed form, started on a fresh `bom_input`. -/
theorem read_bom_eq (x : List Byte) (E : Nat) (p : Bool) :
    read_bom x init_bom_input E p =
      if E ≠ 0 ∧ E &&& (1 <<< resolved x p) = 0 then .error .unexpected_bom_type
      else .ok (resolved x p, x.drop (feed_count x []),
        disambiguate (fed_input (x.take (feed_count x []))) p) := by
  have hn : ([] : List Byte).length + feed_count x [] ≤ BUFFER_SIZE := by
    have := feed_count_nil_le x
    simp only [List.length_nil, BUFFER_SIZE]
    omega
  unfold read_bom
  rw [init_eq_fed_input, read_bom_loop_fed x [] hn]
  simp only [List.nil_append]
  rw [(resolve_fed _ p).1, resolved_take]

theorem sig_eq (i : Nat) : (bom_types_at i).bytes = sig i := rfl

/-- With no expected type, `read_bom` returns `resolved x p`. -/
theorem read_bom_eq_zero (x : List Byte) (p : Bool) :
    read_bom x init_bom_input 0 p =
      .ok (resolved x p, x.drop (feed_count x []),
        disambiguate (fed_input (x.take (feed_count x []))) p) := by
  rw [read_bom_eq]
  simp

/-- The test `expect_types & (1 << bom_type)` of `read_bom` is zero exactly
when bit `t` of the mask is clear. -/
theorem mask_eq_zero_iff (E t : Nat) : E &&& (1 <<< t) = 0 ↔ E.testBit t = false := by
  rw [Nat.one_shiftLeft]
  constructor
  · intro h
    have := Nat.testBit_and E (2 ^ t) t
    rw [h, Nat.testBit_two_pow_self] at this
    simpa using this.symm
  · intro h
    apply Nat.eq_of_testBit_eq
    intro i
    rw [Nat.testBit_and, Nat.testBit_two_pow]
    by_cases hi : t = i
    · subst hi; simp [h]
    · simp [hi]

theorem resolved_ff_fe (r : List Byte) (p : Bool) :
    resolved (0xff :: 0xfe :: r) p
      = if ([0x00, 0x00] : List Byte) <+: r then (if p then BOM_TYPE_UTF_32LE else BOM_TYPE_UTF_16LE)
        else BOM_TYPE_UTF_16LE := by
  have h6 : sig BOM_TYPE_UTF_32LE <+: (0xff :: 0xfe :: r) ↔ ([0x00, 0x00] : List Byte) <+: r := by
    show ([0xff, 0xfe, 0x00, 0x00] : List Byte) <+: (0xff :: 0xfe :: r) ↔ _
    simp
  have h1 : ¬ sig BOM_TYPE_UTF_7 <+: (0xff :: 0xfe :: r) := by
    show ¬ ([0x2b, 0x2f, 0x76] : List Byte) <+: (0xff :: 0xfe :: r)
    simp
  have h2 : ¬ sig BOM_TYPE_UTF_8 <+: (0xff :: 0xfe :: r) := by
    show ¬ ([0xef, 0xbb, 0xbf] : List Byte) <+: (0xff :: 0xfe :: r)
    simp
  have h3 : ¬ sig BOM_TYPE_UTF_16BE <+: (0xff :: 0xfe :: r) := by
    show ¬ ([0xfe, 0xff] : List Byte) <+: (0xff :: 0xfe :: r)
    simp
  have h4 : sig BOM_TYPE_UTF_16LE <+: (0xff :: 0xfe :: r) := by
    show ([0xff, 0xfe] : List Byte) <+: (0xff :: 0xfe :: r)
    simp
  unfold resolved
  rw [if_neg h1, if_neg h2, if_neg h3, if_pos h4]
  by_cases h : ([0x00, 0x00] : List Byte) <+: r
  · rw [if_pos (h6.2 h), if_pos h]
  · rw [if_neg (fun k => h (h6.1 k)), if_neg h]

/-- One call of `read_byte` on a byte, from any `bom_input` whose buffer has
room and whose 8 states are valid: the call returns 1; each state moves as
`next_state` says; the byte is stored at `buf[len]` and `len` grows by one. -/
theorem read_byte_step (ch : Byte) (input : bom_input) (hlen : input.len < BUFFER_SIZE)
    (hms : input.match_state.length = BOM_TYPE_MAX)
    (hv : ∀ i, i < BOM_TYPE_MAX → state_of input i ≤ 2) :
    ∃ input', read_byte (some ch) input = .ok (true, input')
      ∧ input'.len = input.len + 1
      ∧ input'.buf = input.buf.set input.len ch
      ∧ input'.match_state.length = BOM_TYPE_MAX
      ∧ ∀ i, i < BOM_TYPE_MAX →
          state_of input' i = next_state (sig i) input.len ch (state_of input i) := by
  obtain ⟨buf, len, nc, nf, ms⟩ := input
  simp only [BOM_TYPE_MAX, state_of] at hms hv hlen ⊢
  match ms, hms with
  | [m0, m1, m2, m3, m4, m5, m6, m7], _ =>
    have h0 := hv 0 (by omega)
    have h1 := hv 1 (by omega)
    have h2 := hv 2 (by omega)
    have h3 := hv 3 (by omega)
    have h4 := hv 4 (by omega)
    have h5 := hv 5 (by omega)
    have h6 := hv 6 (by omega)
    have h7 := hv 7 (by omega)
    simp only [List.getD_cons_zero, List.getD_cons_succ] at h0 h1 h2 h3 h4 h5 h6 h7
    have hr : List.range BOM_TYPE_MAX = [0, 1, 2, 3, 4, 5, 6, 7] := by decide
    unfold read_byte
    simp only [ge_iff_le, not_le.mpr hlen, if_false, hr]
    simp only [List.foldlM, bind, Except.bind]
    rw [read_byte_update_eq ch _ 0 (by simpa using h0)]
    simp only []
    rw [read_byte_update_eq ch _ 1 (by simpa [updated] using h1)]
    simp only []
    rw [read_byte_update_eq ch _ 2 (by simpa [updated] using h2)]
    simp only []
    rw [read_byte_update_eq ch _ 3 (by simpa [updated] using h3)]
    simp only []
    rw [read_byte_update_eq ch _ 4 (by simpa [updated] using h4)]
    simp only []
    rw [read_byte_update_eq ch _ 5 (by simpa [updated] using h5)]
    simp only []
    rw [read_byte_update_eq ch _ 6 (by simpa [updated] using h6)]
    simp only []
    rw [read_byte_update_eq ch _ 7 (by simpa [updated] using h7)]
    simp only [pure, Except.pure]
    refine ⟨_, rfl, ?_, ?_, ?_, ?_⟩
    · simp [updated]
    · simp [updated]
    · simp [updated]
    · intro i hi
      interval_cases i <;> simp [updated]

/-- A session of `read_byte` calls in closed form. -/
theorem feed_bytes_fed (b fed : List Byte) (h : fed.length + b.length ≤ BUFFER_SIZE) :
    feed_bytes b (fed_input fed) = .ok (fed_input (fed ++ b)) := by
  induction b generalizing fed with
  | nil => simp [feed_bytes]
  | cons ch b ih =>
    simp only [List.length_cons] at h
    rw [feed_bytes, read_byte_fed ch fed (by omega)]
    simp only []
    rw [ih (fed ++ [ch]) (by simp only [List.length_append, List.length_singleton]; omega)]
    simp

theorem feed_bytes_init (b : List Byte) (h : b.length ≤ BUFFER_SIZE) :
    feed_bytes b init_bom_input = .ok (fed_input b) := by
  rw [init_eq_fed_input, feed_bytes_fed b [] (by simpa using h)]
  simp

theorem state_of_fed_input (fed : List Byte) (i : Nat) (hi : i < BOM_TYPE_MAX) :
    state_of (fed_input fed) i = match_of (sig i) fed := by
  simp only [BOM_TYPE_MAX] at hi
  simp only [state_of, fed_input, states_of_eq]
  interval_cases i <;> rfl

theorem isPrefix_iff_take (s b : List Byte) :
    s <+: b ↔ s.length ≤ b.length ∧ s = b.take s.length := by
  constructor
  · intro h
    exact ⟨h.length_le, List.prefix_iff_eq_take.1 h⟩
  · rintro ⟨_, h⟩
    exact List.prefix_iff_eq_take.2 h

theorem match_of_failed_iff (s fed : List Byte) :
    match_of s fed = MATCH_FAILED ↔ ¬ s <+: fed ∧ ¬ (fed <+: s ∧ fed.length < s.length) := by
  have h1 := match_of_complete_iff s fed
  have h2 := match_of_prefix_iff s fed
  have h3 := match_of_le s fed
  rw [← h1, ← h2]
  unfold MATCH_COMPLETE MATCH_PREFIX MATCH_FAILED
  omega

theorem fed_input_valid (fed : List Byte) :
    (fed_input fed).match_state.length = BOM_TYPE_MAX
      ∧ ∀ i, i < BOM_TYPE_MAX → state_of (fed_input fed) i ≤ 2 := by
  refine ⟨rfl, fun i hi => ?_⟩
  rw [state_of_fed_input fed i hi]
  exact match_of_le _ _

theorem filter_range_length (ms : List Nat) (hlen : ms.length = BOM_TYPE_MAX) (q : Nat → Bool) :
    ((List.range BOM_TYPE_MAX).filter fun i => q (ms.getD i 0)).length = ms.countP q := by
  have hr : List.range BOM_TYPE_MAX = [0, 1, 2, 3, 4, 5, 6, 7] := by decide
  simp only [BOM_TYPE_MAX] at hlen
  match ms, hlen with
  | [m0, m1, m2, m3, m4, m5, m6, m7], _ =>
    rw [hr, ← List.countP_eq_length_filter]
    simp only [List.countP_cons, List.countP_nil, List.getD_cons_zero, List.getD_cons_succ]

theorem count_set_failed (l : List Nat) (k : Nat) (hk : k < l.length)
    (h : l.getD k 0 = MATCH_COMPLETE) :
    (l.set k MATCH_FAILED).count MATCH_COMPLETE + 1 = l.count MATCH_COMPLETE := by
  induction l generalizing k with
  | nil => simp at hk
  | cons a l ih =>
    cases k with
    | zero =>
      simp only [List.getD_cons_zero] at h
      subst h
      simp [MATCH_FAILED, MATCH_COMPLETE]
    | succ k =>
      simp only [List.getD_cons_succ, List.length_cons, Nat.add_lt_add_iff_right] at h hk
      have := ih k hk h
      simp only [List.set_cons_succ, List.count_cons]
      omega

theorem countP_set_failed (l : List Nat) (k : Nat) (h : l.getD k 0 = MATCH_COMPLETE) :
    (l.set k MATCH_FAILED).countP (fun s => s != MATCH_PREFIX)
      = l.countP (fun s => s != MATCH_PREFIX) := by
  induction l generalizing k with
  | nil => simp
  | cons a l ih =>
    cases k with
    | zero =>
      simp only [List.getD_cons_zero] at h
      subst h
      simp [MATCH_FAILED, MATCH_COMPLETE, MATCH_PREFIX]
    | succ k =>
      simp only [List.getD_cons_succ] at h
      simp only [List.set_cons_succ, List.countP_cons, ih k h]

/-- A `bom_input` with 8 states agrees with `fed` when its counters are the
counts over the list of its states. -/
theorem input_agrees_iff (input : bom_input) (fed : List Byte)
    (hlen : input.match_state.length = BOM_TYPE_MAX) :
    input_agrees input fed ↔
      input.num_complete = (input.match_state.count MATCH_COMPLETE : Nat)
      ∧ input.num_finished = input.match_state.countP (fun s => s != MATCH_PREFIX)
      ∧ input.len = fed.length
      ∧ input.buf.take input.len = fed := by
  have h1 := filter_range_length input.match_state hlen (fun s => decide (s = MATCH_COMPLETE))
  have h2 := filter_range_length input.match_state hlen (fun s => s != MATCH_PREFIX)
  have h3 : input.match_state.countP (fun s => decide (s = MATCH_COMPLETE))
      = input.match_state.count MATCH_COMPLETE := by
    rw [List.count, List.countP_congr]
    intro x _
    simp
  have e1 : (List.filter (fun i => decide (state_of input i = MATCH_COMPLETE))
      (List.range BOM_TYPE_MAX)).length = input.match_state.count MATCH_COMPLETE := by
    rw [← h3, ← h1]
    rfl
  have e2 : (List.filter (fun i => decide (state_of input i ≠ MATCH_PREFIX))
      (List.range BOM_TYPE_MAX)).length
      = input.match_state.countP (fun s => s != MATCH_PREFIX) := by
    rw [← h2]
    congr 2
    funext i
    unfold state_of
    generalize input.match_state.getD i 0 = v
    by_cases hx : v = MATCH_PREFIX <;> simp [hx]
  unfold input_agrees
  rw [e1, e2]

theorem fed_input_agrees (fed : List Byte) (p : Bool) :
    input_agrees (fed_input fed) fed ∧ input_agrees (disambiguate (fed_input fed) p) fed := by
  have hbuf : (fed_input fed).buf.take (fed_input fed).len = fed := by
    simp [fed_input]
  have hl8 : (fed_input fed).match_state.length = 8 := rfl
  have h1 : input_agrees (fed_input fed) fed := by
    rw [input_agrees_iff _ _ (fed_input_valid fed).1]
    exact ⟨rfl, rfl, rfl, hbuf⟩
  refine ⟨h1, ?_⟩
  by_cases hc : (fed_input fed).match_state.getD BOM_TYPE_UTF_16LE 0 = MATCH_COMPLETE
      ∧ (fed_input fed).match_state.getD BOM_TYPE_UTF_32LE 0 = MATCH_COMPLETE
  · have hk : (fed_input fed).match_state.getD
        (if p then BOM_TYPE_UTF_16LE else BOM_TYPE_UTF_32LE) 0 = MATCH_COMPLETE := by
      cases p
      · exact hc.2
      · exact hc.1
    have hlt : (if p then BOM_TYPE_UTF_16LE else BOM_TYPE_UTF_32LE)
        < (fed_input fed).match_state.length := by
      rw [hl8]
      cases p <;> decide
    have hcnt := count_set_failed _ _ hlt hk
    have hcntP := countP_set_failed _ _ hk
    rw [input_agrees_iff _ _ (by simp only [disambiguate, if_pos hc, List.length_set]; rfl)]
    simp only [disambiguate, if_pos hc]
    refine ⟨?_, ?_, rfl, hbuf⟩
    · simp only [fed_input] at hcnt ⊢
      omega
    · rw [hcntP]
      rfl
  · have hd : disambiguate (fed_input fed) p = fed_input fed := by
      simp only [disambiguate, if_neg hc]
    rw [hd]
    exact h1

/-- Before the loop of `read_bom` stops, some signature is in the prefix
state after each byte. -/
theorem feed_count_min (x fed : List Byte) (m : Nat) (hm : 0 < m) (h : m < feed_count x fed) :
    (fed_input (fed ++ x.take m)).num_finished ≠ BOM_TYPE_MAX := by
  induction x generalizing fed m with
  | nil => simp [feed_count] at h
  | cons ch x ih =>
    obtain ⟨m', rfl⟩ : ∃ m', m = m' + 1 := ⟨m - 1, by omega⟩
    unfold feed_count at h
    split_ifs at h with hf
    · omega
    · rw [List.take_succ_cons]
      have e : fed ++ ch :: x.take m' = (fed ++ [ch]) ++ x.take m' := by simp
      rw [e]
      rcases Nat.eq_zero_or_pos m' with h0 | hpos
      · subst h0
        simpa using hf
      · exact ih (fed ++ [ch]) m' hpos (by omega)

theorem read_bom_loop_init (x : List Byte) :
    read_bom_loop x init_bom_input
      = .ok (x.drop (feed_count x []), fed_input (x.take (feed_count x []))) := by
  have hn : ([] : List Byte).length + feed_count x [] ≤ BUFFER_SIZE := by
    have := feed_count_nil_le x
    simp only [List.length_nil, BUFFER_SIZE]
    omega
  have hl := read_bom_loop_fed x [] hn
  rw [← init_eq_fed_input] at hl
  simpa using hl

/-! ## Lemmas on `bom_strip` -/

/-- The fill loop in closed form: it moves bytes from the stream to the buffer
until the buffer is full or the stream is at its end, whatever the cuts of the
reads are, and sets `eof` exactly when the stream ended first. -/
theorem fill_loop_eq (fuel : Nat) (short : List Nat) (fp : FILE) (ibuf : List Byte)
    (h : BUFFER_SIZE - ibuf.length < fuel) :
    ∃ short', fill_loop fuel short fp ibuf
      = some (short', fp.drop (BUFFER_SIZE - ibuf.length),
          ibuf ++ fp.take (BUFFER_SIZE - ibuf.length),
          decide (fp.length < BUFFER_SIZE - ibuf.length)) := by
  induction fuel generalizing short fp ibuf with
  | zero => omega
  | succ fuel ih =>
    unfold fill_loop
    by_cases hlt : ibuf.length < BUFFER_SIZE
    · rw [if_pos hlt]
      simp only [fread]
      set c := min (BUFFER_SIZE - ibuf.length) (short.headD (BUFFER_SIZE - ibuf.length) + 1)
        with hc
      have hc1 : 1 ≤ c := by omega
      have hc2 : c ≤ BUFFER_SIZE - ibuf.length := by omega
      by_cases hfp : fp = []
      · subst hfp
        refine ⟨short.tail, ?_⟩
        simp
        omega
      · have hpos : 0 < fp.length := List.length_pos.2 hfp
        have hne : ¬ (List.take c fp).length = 0 := by
          simp only [List.length_take]; omega
        rw [if_neg hne]
        have hlen : (ibuf ++ List.take c fp).length = ibuf.length + min c fp.length := by
          simp
        obtain ⟨short', h'⟩ := ih short.tail (fp.drop c) (ibuf ++ fp.take c) (by omega)
        refine ⟨short', ?_⟩
        rw [h', hlen]
        have e1 : List.drop (BUFFER_SIZE - (ibuf.length + min c fp.length)) (List.drop c fp)
            = List.drop (BUFFER_SIZE - ibuf.length) fp := by
          rw [List.drop_drop]
          rcases Nat.le_total c fp.length with hle | hle
          · rw [Nat.min_eq_left hle]
            congr 1; omega
          · rw [List.drop_eq_nil_of_le (by omega), List.drop_eq_nil_of_le (by omega)]
        have e2 : ibuf ++ List.take c fp
              ++ List.take (BUFFER_SIZE - (ibuf.length + min c fp.length)) (List.drop c fp)
            = ibuf ++ List.take (BUFFER_SIZE - ibuf.length) fp := by
          rw [List.append_assoc]
          congr 1
          rcases Nat.le_total c fp.length with hle | hle
          · rw [Nat.min_eq_left hle]
            have : BUFFER_SIZE - ibuf.length = c + (BUFFER_SIZE - (ibuf.length + c)) := by omega
            rw [this, List.take_add]
          · rw [List.drop_eq_nil_of_le hle, List.take_nil, List.append_nil,
              List.take_of_length_le hle, List.take_of_length_le (by omega)]
        have e3 : decide ((List.drop c fp).length < BUFFER_SIZE - (ibuf.length + min c fp.length))
            = decide (fp.length < BUFFER_SIZE - ibuf.length) := by
          simp only [List.length_drop, decide_eq_decide]
          omega
        rw [e1, e2, e3]
    · rw [if_neg hlt]
      refine ⟨short, ?_⟩
      have : BUFFER_SIZE - ibuf.length = 0 := by omega
      simp [this]

/-- A round of `bom_strip` without conversion: the buffer is filled and
written, nothing is kept for the next round, and `done` is set when the buffer
was empty after the fill. -/
theorem strip_round_copy {σ : Type} (svc : iconv_service σ) (lenient : Bool)
    (s : strip_state σ) :
    ∃ s', strip_round svc lenient false s
        = some (.ok (s', decide (s.ibuf ++ s.fp.take (BUFFER_SIZE - s.ibuf.length) = [])))
      ∧ s'.ibuf = [] ∧ s'.fp = s.fp.drop (BUFFER_SIZE - s.ibuf.length)
      ∧ s'.out = s.out ++ (s.ibuf ++ s.fp.take (BUFFER_SIZE - s.ibuf.length)) := by
  obtain ⟨short', hf⟩ := fill_loop_eq (BUFFER_SIZE + 1) s.short s.fp s.ibuf (by omega)
  unfold strip_round
  rw [hf]
  simp only [Bool.false_eq_true, if_false]
  have hd : decide ((s.ibuf ++ s.fp.take (BUFFER_SIZE - s.ibuf.length)).length = 0)
      = decide (s.ibuf ++ s.fp.take (BUFFER_SIZE - s.ibuf.length) = []) := by
    simp only [decide_eq_decide, List.length_eq_zero]
  rw [hd]
  exact ⟨_, rfl, by simp [finish_round], by simp [finish_round], by simp [finish_round]⟩

/-- The main loop of `bom_strip` without conversion ends, and has then written
the residue followed by the rest of the stream. -/
theorem strip_loop_copy {σ : Type} (svc : iconv_service σ) (lenient : Bool) (fuel : Nat)
    (s : strip_state σ) (h : s.fp.length + s.ibuf.length < fuel) :
    ∃ s', strip_loop svc lenient false fuel s = some (.ok s')
      ∧ s'.out = s.out ++ s.ibuf ++ s.fp := by
  induction fuel generalizing s with
  | zero => omega
  | succ fuel ih =>
    obtain ⟨s1, hr, hib, hfp, hout⟩ := strip_round_copy svc lenient s
    unfold strip_loop
    rw [hr]
    simp only []
    by_cases hd : s.ibuf ++ s.fp.take (BUFFER_SIZE - s.ibuf.length) = []
    · rw [decide_eq_true hd, if_pos rfl]
      refine ⟨s1, rfl, ?_⟩
      have h1 : s.ibuf = [] := (List.append_eq_nil.1 hd).1
      have h2 : s.fp.take (BUFFER_SIZE - s.ibuf.length) = [] := (List.append_eq_nil.1 hd).2
      have h3 : s.fp = [] := by
        rw [h1] at h2
        simpa [BUFFER_SIZE] using h2
      rw [hout, hd, h1, h3]
      simp
    · rw [decide_eq_false hd]
      simp only [Bool.false_eq_true, if_false]
      have hm : s1.fp.length + s1.ibuf.length < fuel := by
        rw [hib, hfp]
        simp only [List.length_drop, List.length_nil]
        by_cases hi : s.ibuf = []
        · have hne : s.fp ≠ [] := by
            intro hfe
            apply hd
            simp [hi, hfe]
          have := List.length_pos.2 hne
          simp only [hi, List.length_nil, BUFFER_SIZE] at h ⊢
          omega
        · have := List.length_pos.2 hi
          omega
      obtain ⟨s', hs', hout'⟩ := ih s1 hm
      refine ⟨s', hs', ?_⟩
      rw [hout', hout, hib, hfp]
      simp

theorem resolved_isPrefix (x : List Byte) (p : Bool) : sig (resolved x p) <+: x := by
  have hu := utf16le_of_utf32le x
  unfold resolved BOM_TYPE_NONE BOM_TYPE_UTF_7 BOM_TYPE_UTF_8 BOM_TYPE_UTF_16BE
    BOM_TYPE_UTF_16LE BOM_TYPE_UTF_32BE BOM_TYPE_UTF_32LE BOM_TYPE_GB18030 at *
  split_ifs
  all_goals first | assumption | exact hu ‹_› | exact List.nil_prefix

theorem disambiguate_buf (input : bom_input) (p : Bool) :
    (disambiguate input p).buf = input.buf ∧ (disambiguate input p).len = input.len := by
  unfold disambiguate
  split_ifs <;> exact ⟨rfl, rfl⟩

/-- The bytes that `bom_strip` copies from the `bom_input` to its own buffer
are the bytes that were fed after the BOM. -/
theorem residue_eq (fed : List Byte) (L : Nat) (hL : L ≤ fed.length) :
    ((fed ++ List.replicate (BUFFER_SIZE - fed.length) 0).drop L).take
        ((fed.length : Int) - (L : Int)).toNat = fed.drop L := by
  have h1 : ((fed.length : Int) - (L : Int)).toNat = fed.length - L := by omega
  rw [h1, List.drop_append_of_le_length hL, List.take_append_of_le_length (by simp)]
  rw [List.take_of_length_le (by simp)]

theorem drop_take_append_drop (x : List Byte) (n L : Nat) (hL : L ≤ (x.take n).length) :
    (x.take n).drop L ++ x.drop n = x.drop L := by
  rw [← List.drop_append_of_le_length hL, List.take_append_drop]

theorem append_drop_of_isPrefix (l x : List Byte) (h : l <+: x) :
    l ++ x.drop l.length = x := by
  obtain ⟨r, rfl⟩ := h
  simp

/-- The function `bom_strip` without conversion, in closed form. -/
theorem bom_strip_copy {σ : Type} [Inhabited σ] (svc : iconv_service σ) (x : List Byte)
    (short : List Nat) (E : Nat) (lenient p : Bool) (fuel : Nat) (hfuel : x.length < fuel) :
    bom_strip svc fuel x short E lenient p false =
      if E ≠ 0 ∧ E &&& (1 <<< resolved x p) = 0 then some (.error .unexpected_bom_type)
      else some (.ok (x.drop (sig (resolved x p)).length)) := by
  unfold bom_strip
  rw [read_bom_eq]
  split_ifs with hE
  · rfl
  · simp only [ite_self, Bool.false_eq_true, if_false]
    have hn := feed_count_le_length x []
    have hpre : sig (resolved x p) <+: x.take (feed_count x []) :=
      (prefix_take_feed_count x _).2 (resolved_isPrefix x p)
    have hL : (sig (resolved x p)).length ≤ (x.take (feed_count x [])).length := hpre.length_le
    have hres := residue_eq (x.take (feed_count x [])) (sig (resolved x p)).length hL
    obtain ⟨hb, hl⟩ := disambiguate_buf (fed_input (x.take (feed_count x []))) p
    simp only [residue_len, hb, hl, len_eq_length]
    simp only [fed_input] at hres ⊢
    rw [hres]
    have hm : (x.drop (feed_count x [])).length
        + ((x.take (feed_count x [])).drop (sig (resolved x p)).length).length < fuel := by
      simp only [List.length_drop, List.length_take]
      omega
    obtain ⟨s', hs', hout⟩ := strip_loop_copy svc lenient fuel
      { fp := x.drop (feed_count x []), short := short,
        ibuf := (x.take (feed_count x [])).drop (sig (resolved x p)).length,
        offset := (sig (resolved x p)).length, icd := default, out := [] } hm
    rw [hs']
    simp only [hout, List.nil_append]
    congr 2
    exact drop_take_append_drop x _ _ hL

/-- Without conversion a round uses neither the service nor `lenient`. -/
theorem strip_round_copy_indep {σ : Type} (svc svc' : iconv_service σ) (lenient lenient' : Bool)
    (s : strip_state σ) :
    strip_round svc lenient false s = strip_round svc' lenient' false s := by
  unfold strip_round
  rfl

/-- Without conversion the main loop uses neither the service nor `lenient`,
whatever the bound on the rounds. -/
theorem strip_loop_copy_indep {σ : Type} (svc svc' : iconv_service σ) (lenient lenient' : Bool)
    (fuel : Nat) (s : strip_state σ) :
    strip_loop svc lenient false fuel s = strip_loop svc' lenient' false fuel s := by
  induction fuel generalizing s with
  | zero => rfl
  | succ fuel ih =>
    unfold strip_loop
    rw [strip_round_copy_indep svc svc' lenient lenient' s]
    cases strip_round svc' lenient' false s with
    | none => rfl
    | some r =>
      cases r with
      | error e => rfl
      | ok v =>
        obtain ⟨s1, d⟩ := v
        simp only []
        rw [ih s1]

theorem round_iconv_eq {σ : Type} (svc : iconv_service σ) (s : strip_state σ)
    (ibuf : List Byte) :
    svc.iconv s.icd (if (!decide (ibuf.length = 0)) = true then some ibuf else none) BUFFER_SIZE
      = round_iconv svc s ibuf := by
  unfold round_iconv
  cases ibuf <;> simp

theorem fill_loop_nil (fuel : Nat) (short : List Nat) :
    fill_loop (fuel + 1) short [] [] = some (short.tail, [], [], true) := by
  simp [fill_loop, fread, BUFFER_SIZE]

/-- When the fill loop sets `eof`, the stream is used up. -/
theorem fill_loop_eof (short : List Nat) (fp : FILE) (ibuf : List Byte)
    (short' : List Nat) (fp' : FILE) (ibuf' : List Byte)
    (h : fill_loop (BUFFER_SIZE + 1) short fp ibuf = some (short', fp', ibuf', true)) :
    fp' = [] := by
  obtain ⟨short'', h'⟩ := fill_loop_eq (BUFFER_SIZE + 1) short fp ibuf (by omega)
  rw [h'] at h
  simp only [Option.some.injEq, Prod.mk.injEq, decide_eq_true_eq] at h
  obtain ⟨_, h1, _, h2⟩ := h
  rw [← h1]
  exact List.drop_eq_nil_of_le (by omega)

/-- The bytes that `bom_strip` copies to its buffer after `read_bom`,
followed by the stream that `read_bom` left, are the stream without the bytes
of the BOM found. -/
theorem read_bom_residue (x : List Byte) (E : Nat) (p : Bool) (t : Nat) (fp : FILE)
    (input : bom_input) (h : read_bom x init_bom_input E p = .ok (t, fp, input)) :
    (input.buf.drop (bom_types_at t).len).take (residue_len input (bom_types_at t)).toNat ++ fp
      = x.drop (bom_types_at t).len := by
  rw [read_bom_eq] at h
  split_ifs at h with hE
  simp only [Except.ok.injEq, Prod.mk.injEq] at h
  obtain ⟨rfl, rfl, rfl⟩ := h
  have hpre : sig (resolved x p) <+: x.take (feed_count x []) :=
    (prefix_take_feed_count x _).2 (resolved_isPrefix x p)
  have hL : (sig (resolved x p)).length ≤ (x.take (feed_count x [])).length := hpre.length_le
  have hres := residue_eq (x.take (feed_count x [])) (sig (resolved x p)).length hL
  obtain ⟨hb, hl⟩ := disambiguate_buf (fed_input (x.take (feed_count x []))) p
  simp only [residue_len, hb, hl, len_eq_length]
  simp only [fed_input] at hres ⊢
  rw [hres]
  exact drop_take_append_drop x _ _ hL

/-- The buffer after the fill of a round, in closed form. -/
theorem round_buffer_eq {σ : Type} (s : strip_state σ) :
    round_buffer s = s.ibuf ++ s.fp.take (BUFFER_SIZE - s.ibuf.length) := by
  obtain ⟨short', hf⟩ := fill_loop_eq (BUFFER_SIZE + 1) s.short s.fp s.ibuf (by omega)
  simp only [round_buffer, hf]

/-- The end of a round keeps the agreement of `offset` with the stream `x`:
when the buffer `B` followed by the stream left is `x` from position `offset`
on, the same holds after "Update file offset" and the `memmove`, whether
`iremain` is what the call of `iconv` left or was set to 0. -/
theorem finish_round_offset {σ : Type} (s : strip_state σ) (short : List Nat) (fp : FILE)
    (B : List Byte) (icd : σ) (adv iremain : Nat) (output : List Byte) (x : List Byte)
    (h : iremain = B.length - adv ∨ iremain = 0)
    (hx : B ++ fp = x.drop s.offset) (hl : s.offset + B.length + fp.length = x.length) :
    (finish_round s short fp B icd adv iremain output).ibuf
        ++ (finish_round s short fp B icd adv iremain output).fp
        = x.drop (finish_round s short fp B icd adv iremain output).offset
      ∧ (finish_round s short fp B icd adv iremain output).offset
          + (finish_round s short fp B icd adv iremain output).ibuf.length
          + (finish_round s short fp B icd adv iremain output).fp.length = x.length := by
  have hdd : ∀ m, x.drop (s.offset + m) = (B ++ fp).drop m := by
    intro m
    rw [hx, List.drop_drop, Nat.add_comm]
  simp only [finish_round]
  rcases h with h | h
  · subst h
    have ht : (B.drop adv).take (B.length - adv) = B.drop adv := List.take_of_length_le (by simp)
    rw [ht, hdd]
    by_cases ha : adv ≤ B.length
    · have hoff : B.length - (B.length - adv) = adv := by omega
      rw [hoff, List.drop_append_of_le_length ha]
      refine ⟨rfl, ?_⟩
      simp only [List.length_drop]
      omega
    · have hoff : B.length - (B.length - adv) = B.length := by omega
      rw [hoff, List.drop_of_length_le (by omega : B.length ≤ adv), List.drop_left]
      refine ⟨rfl, ?_⟩
      simp only [List.length_nil]
      omega
  · subst h
    rw [List.take_zero, Nat.sub_zero, hdd, List.drop_left]
    refine ⟨rfl, ?_⟩
    simp only [List.length_nil]
    omega

/-- A round that does not fail ends through `finish_round` on the buffer that
the fill made, with `iremain` what the call of `iconv` left or 0. -/
theorem strip_round_ok {σ : Type} (svc : iconv_service σ) (lenient utf8 : Bool)
    (s s' : strip_state σ) (done : Bool)
    (h : strip_round svc lenient utf8 s = some (.ok (s', done))) :
    ∃ short' icd adv iremain output,
      s' = finish_round s short' (s.fp.drop (BUFFER_SIZE - s.ibuf.length)) (round_buffer s) icd
        adv iremain output
      ∧ (iremain = (round_buffer s).length - adv ∨ iremain = 0) := by
  obtain ⟨short', hf⟩ := fill_loop_eq (BUFFER_SIZE + 1) s.short s.fp s.ibuf (by omega)
  rw [round_buffer_eq]
  generalize s.ibuf ++ s.fp.take (BUFFER_SIZE - s.ibuf.length) = B at hf
  unfold strip_round at h
  rw [hf] at h
  cases utf8 with
  | false =>
    simp only [Bool.false_eq_true, if_false, Option.some.injEq, Except.ok.injEq,
      Prod.mk.injEq] at h
    exact ⟨_, _, _, _, _, h.1.symm, Or.inr rfl⟩
  | true =>
    simp only [if_true, round_iconv_eq] at h
    generalize (if (!decide (B.length = 0)) = true then (round_iconv svc s B).consumed else 0)
      = adv at h
    cases herr : (round_iconv svc s B).error with
    | none =>
      rw [herr] at h
      simp only [Option.some.injEq, Except.ok.injEq, Prod.mk.injEq] at h
      exact ⟨_, _, _, _, _, h.1.symm, Or.inl rfl⟩
    | some e =>
      rw [herr] at h
      cases e with
      | EINVAL =>
        simp only [] at h
        split_ifs at h
        · simp only [Option.some.injEq, Except.ok.injEq, Prod.mk.injEq] at h
          exact ⟨_, _, _, _, _, h.1.symm, Or.inl rfl⟩
        · simp only [Option.some.injEq, Except.ok.injEq, Prod.mk.injEq] at h
          exact ⟨_, _, _, _, _, h.1.symm, Or.inr rfl⟩
        · simp at h
      | EILSEQ =>
        simp only [] at h
        split_ifs at h
        · simp only [Option.some.injEq, Except.ok.injEq, Prod.mk.injEq] at h
          exact ⟨_, _, _, _, _, h.1.symm, Or.inr rfl⟩
        · simp at h
      | other => simp at h

/-- A round that does not fail keeps the agreement of `offset` with the
stream `x`. -/
theorem strip_round_offset {σ : Type} (svc : iconv_service σ) (lenient utf8 : Bool)
    (s s' : strip_state σ) (done : Bool) (x : List Byte)
    (h : strip_round svc lenient utf8 s = some (.ok (s', done)))
    (hx : s.ibuf ++ s.fp = x.drop s.offset)
    (hl : s.offset + s.ibuf.length + s.fp.length = x.length) :
    s'.ibuf ++ s'.fp = x.drop s'.offset
      ∧ s'.offset + s'.ibuf.length + s'.fp.length = x.length := by
  obtain ⟨short', icd, adv, iremain, output, rfl, hrem⟩ := strip_round_ok svc lenient utf8 s s' done h
  have hsplit : round_buffer s ++ s.fp.drop (BUFFER_SIZE - s.ibuf.length) = s.ibuf ++ s.fp := by
    rw [round_buffer_eq, List.append_assoc, List.take_append_drop]
  have hlen := congrArg List.length hsplit
  simp only [List.length_append] at hlen
  exact finish_round_offset s short' _ (round_buffer s) icd adv iremain output x hrem
    (by rw [hsplit, hx]) (by omega)

/-- A round ends with the "invalid byte sequence" error only in strict mode
with conversion, and the file offset it reports is `offset + (iptr - ibuf)`. -/
theorem strip_round_illegal {σ : Type} (svc : iconv_service σ) (lenient utf8 : Bool)
    (s : strip_state σ) (off : Nat)
    (h : strip_round svc lenient utf8 s = some (.error (.illegal_bytes off))) :
    lenient = false ∧ utf8 = true ∧ off = s.offset + round_adv svc s := by
  obtain ⟨short', hf⟩ := fill_loop_eq (BUFFER_SIZE + 1) s.short s.fp s.ibuf (by omega)
  have hadv : round_adv svc s
      = if (!decide ((round_buffer s).length = 0)) = true
          then (round_iconv svc s (round_buffer s)).consumed else 0 := by
    unfold round_adv
    by_cases hb : round_buffer s = []
    · simp [hb]
    · have hlen : ¬ (round_buffer s).length = 0 := fun h0 => hb (List.length_eq_zero.1 h0)
      simp [hb, hlen]
  rw [hadv, round_buffer_eq]
  generalize s.ibuf ++ s.fp.take (BUFFER_SIZE - s.ibuf.length) = B at hf
  unfold strip_round at h
  rw [hf] at h
  cases utf8 with
  | false => simp at h
  | true =>
    simp only [if_true, round_iconv_eq] at h
    generalize (if (!decide (B.length = 0)) = true then (round_iconv svc s B).consumed else 0)
      = adv at h
    cases herr : (round_iconv svc s B).error with
    | none =>
      rw [herr] at h
      simp at h
    | some e =>
      rw [herr] at h
      cases lenient with
      | true =>
        cases e with
        | EINVAL =>
          simp only [if_true] at h
          split_ifs at h <;> simp at h
        | EILSEQ => simp at h
        | other => simp at h
      | false =>
        refine ⟨rfl, rfl, ?_⟩
        cases e with
        | EINVAL =>
          simp only [Bool.false_eq_true, if_false] at h
          split_ifs at h
          · simp at h
          · simp only [Option.some.injEq, Except.error.injEq, Fatal.illegal_bytes.injEq] at h
            exact h.symm
        | EILSEQ =>
          simp only [Bool.false_eq_true, if_false, Option.some.injEq, Except.error.injEq,
            Fatal.illegal_bytes.injEq] at h
          exact h.symm
        | other => simp at h

/-- The agreement of `offset` with the stream `x` holds at the start of every
round when it holds at the start of the loop. -/
theorem round_start_offset {σ : Type} (svc : iconv_service σ) (lenient utf8 : Bool)
    (x : List Byte) (k : Nat) (s0 s : strip_state σ)
    (h : round_start svc lenient utf8 k s0 = some s)
    (hx : s0.ibuf ++ s0.fp = x.drop s0.offset)
    (hl : s0.offset + s0.ibuf.length + s0.fp.length = x.length) :
    s.ibuf ++ s.fp = x.drop s.offset ∧ s.offset + s.ibuf.length + s.fp.length = x.length := by
  induction k generalizing s0 with
  | zero =>
    simp only [round_start, Option.some.injEq] at h
    subst h
    exact ⟨hx, hl⟩
  | succ k ih =>
    unfold round_start at h
    cases hr : strip_round svc lenient utf8 s0 with
    | none => simp [hr] at h
    | some r =>
      cases r with
      | error e => simp [hr] at h
      | ok v =>
        obtain ⟨s1, done⟩ := v
        cases done with
        | true => simp [hr] at h
        | false =>
          rw [hr] at h
          simp only [] at h
          obtain ⟨h1, h2⟩ := strip_round_offset svc lenient utf8 s0 s1 false x hr hx hl
          exact ih s1 h h1 h2

/-- The loop from its start is the loop from the start of a round it
reaches. -/
theorem strip_loop_round_start {σ : Type} (svc : iconv_service σ) (lenient utf8 : Bool)
    (k : Nat) (s0 s : strip_state σ) (h : round_start svc lenient utf8 k s0 = some s)
    (fuel : Nat) :
    strip_loop svc lenient utf8 (k + fuel) s0 = strip_loop svc lenient utf8 fuel s := by
  induction k generalizing s0 with
  | zero =>
    simp only [round_start, Option.some.injEq] at h
    subst h
    rw [Nat.zero_add]
  | succ k ih =>
    unfold round_start at h
    cases hr : strip_round svc lenient utf8 s0 with
    | none => simp [hr] at h
    | some r =>
      cases r with
      | error e => simp [hr] at h
      | ok v =>
        obtain ⟨s1, done⟩ := v
        cases done with
        | true => simp [hr] at h
        | false =>
          rw [hr] at h
          simp only [] at h
          rw [Nat.add_right_comm, strip_loop, hr]
          simp only [Bool.false_eq_true, if_false]
          exact ih s1 h

/-- The signature of the type `read_bom` returns is not longer than the
stream. -/
theorem read_bom_len_le (x : List Byte) (E : Nat) (p : Bool) (t : Nat) (fp : FILE)
    (input : bom_input) (h : read_bom x init_bom_input E p = .ok (t, fp, input)) :
    (bom_types_at t).len ≤ x.length := by
  rw [read_bom_eq] at h
  split_ifs at h with hE
  simp only [Except.ok.injEq, Prod.mk.injEq] at h
  obtain ⟨rfl, rfl, rfl⟩ := h
  rw [len_eq_length]
  exact (resolved_isPrefix x p).length_le

/-- The bytes that the call of `iconv` takes in a round are the first
`iptr - ibuf` bytes of the buffer. -/
theorem round_consumed_eq {σ : Type} (svc : iconv_service σ) (s : strip_state σ) :
    round_consumed svc s = (round_buffer s).take (round_adv svc s) := by
  unfold round_consumed round_adv
  by_cases hb : round_buffer s = []
  · simp [hb]
  · simp [hb]

set_option maxRecDepth 40000 in
/-- A run of three rounds that ends normally: 1023 bytes `A` and the sequence
E2 82 AC, which the first fill cuts after its first byte.  The calls of `iconv`
take the 1023 bytes, then the whole sequence, then nothing, and no round
escalates. -/
theorem run_ranges_three_rounds :
    run_ranges utf8_copy false 3
        { fp := List.replicate 1023 0x41 ++ [0xe2, 0x82, 0xac], short := [], ibuf := [],
          offset := 3, icd := (), out := [] }
      = [List.replicate 1023 0x41, [0xe2, 0x82, 0xac], []]
    ∧ run_escalates utf8_copy false 3
        { fp := List.replicate 1023 0x41 ++ [0xe2, 0x82, 0xac], short := [], ibuf := [],
          offset := 3, icd := (), out := [] } = false
    ∧ (strip_loop utf8_copy false true 3
        { fp := List.replicate 1023 0x41 ++ [0xe2, 0x82, 0xac], short := [], ibuf := [],
          offset := 3, icd := (), out := [] }).map (Except.map fun s => s.out)
      = some (.ok (List.replicate 1023 0x41 ++ [0xe2, 0x82, 0xac])) := by
  decide

/-! ## Lemmas on the UTF-8 scan -/

theorem utf8_seq_len_le (b : Byte) : utf8_seq_len b ≤ 4 := by
  unfold utf8_seq_len
  split_ifs <;> omega

theorem utf8_trail_all_take (b : Byte) (i m : Nat) (l : List Byte)
    (h : utf8_trail_all b i l = true) : utf8_trail_all b i (l.take m) = true := by
  induction l generalizing i m with
  | nil => simpa using h
  | cons c cs ih =>
    cases m with
    | zero => simp [utf8_trail_all]
    | succ m =>
      simp only [utf8_trail_all, Bool.and_eq_true, List.take_succ_cons] at h ⊢
      exact ⟨h.1, ih _ _ h.2⟩

/-- A bound on the number of sequences above the length of the buffer does
not change the scan. -/
theorem utf8_scan_fuel (f : Nat) (x : List Byte) (h : x.length ≤ f) :
    utf8_scan f x = utf8_buf_scan x := by
  unfold utf8_buf_scan
  induction f using Nat.strong_induction_on generalizing x with
  | _ f ih =>
    cases x with
    | nil => cases f <;> rfl
    | cons b rest =>
      cases f with
      | zero => simp at h
      | succ f =>
        simp only [List.length_cons] at h ⊢
        have hd : (rest.drop (utf8_seq_len b - 1)).length ≤ rest.length := by
          simp
        simp only [utf8_scan]
        rw [ih f (by omega) _ (by omega), ih rest.length (by omega) _ hd]

theorem utf8_buf_scan_nil : utf8_buf_scan [] = (0, none) := rfl

theorem utf8_buf_scan_cons (b : Byte) (rest : List Byte) :
    utf8_buf_scan (b :: rest) =
      if utf8_seq_len b = 0 then (0, some .EILSEQ)
      else if (!utf8_trail_all b 1 (rest.take (utf8_seq_len b - 1))) = true then
        (0, some .EILSEQ)
      else if rest.length < utf8_seq_len b - 1 then (0, some .EINVAL)
      else ((utf8_seq_len b) + (utf8_buf_scan (rest.drop (utf8_seq_len b - 1))).1,
        (utf8_buf_scan (rest.drop (utf8_seq_len b - 1))).2) := by
  conv_lhs => unfold utf8_buf_scan
  simp only [List.length_cons, utf8_scan]
  rw [utf8_scan_fuel rest.length _ (by simp)]

/-- The scan of the first `k` bytes of well-formed text: it takes `c` bytes,
fewer than 4 are left, these are reported by `EINVAL`, and the text from `c` on
is well-formed. -/
theorem utf8_buf_scan_take (x : List Byte) (hv : valid_utf8 x) (k : Nat) (hk : k ≤ x.length) :
    ∃ c, c ≤ k ∧ k < c + 4
      ∧ utf8_buf_scan (x.take k) = (c, if c = k then none else some .EINVAL)
      ∧ valid_utf8 (x.drop c) := by
  generalize hn : x.length = n
  induction n using Nat.strong_induction_on generalizing x k with
  | _ n ih =>
    cases x with
    | nil =>
      simp only [List.length_nil, Nat.le_zero] at hk
      subst hk
      exact ⟨0, le_refl _, by omega, by simp [utf8_buf_scan_nil], by simpa using hv⟩
    | cons b rest =>
      have hv' := hv
      unfold valid_utf8 at hv'
      rw [utf8_buf_scan_cons] at hv'
      split_ifs at hv' with h1 h2 h3
      · simp at hv'
      · simp at hv'
      · simp at hv'
      have hlen4 := utf8_seq_len_le b
      simp only [Prod.mk.injEq, List.length_cons] at hv'
      obtain ⟨hv1, hv2⟩ := hv'
      have hvd : valid_utf8 (rest.drop (utf8_seq_len b - 1)) := by
        unfold valid_utf8
        refine Prod.ext ?_ hv2
        simp only [List.length_drop]
        omega
      simp only [Bool.not_eq_true', Bool.not_eq_false] at h2
      rcases Nat.eq_zero_or_pos k with hk0 | hkpos
      · subst hk0
        exact ⟨0, le_refl _, by omega, by simp [utf8_buf_scan_nil], by simpa using hv⟩
      · obtain ⟨k', rfl⟩ : ∃ k', k = k' + 1 := ⟨k - 1, by omega⟩
        simp only [List.length_cons] at hk
        rw [List.take_succ_cons]
        rcases Nat.lt_or_ge (k' + 1) (utf8_seq_len b) with hlt | hge
        · refine ⟨0, by omega, by omega, ?_, by simpa using hv⟩
          rw [utf8_buf_scan_cons, if_neg h1]
          have m1 : min (utf8_seq_len b - 1) k' = k' := by omega
          have m2 : min k' (utf8_seq_len b - 1) = k' := by omega
          have ht : utf8_trail_all b 1 ((rest.take k').take (utf8_seq_len b - 1)) = true := by
            have := utf8_trail_all_take b 1 k' _ h2
            simp only [List.take_take, m1, m2] at this ⊢
            exact this
          rw [ht]
          simp only [Bool.not_true, Bool.false_eq_true, if_false]
          have hl : (rest.take k').length < utf8_seq_len b - 1 := by
            simp only [List.length_take]; omega
          rw [if_pos hl]
          simp
        · have hk2 : k' + 1 - utf8_seq_len b ≤ (rest.drop (utf8_seq_len b - 1)).length := by
            simp only [List.length_drop]; omega
          obtain ⟨c', hc1, hc2, hc3, hc4⟩ := ih (rest.drop (utf8_seq_len b - 1)).length
            (by simp only [List.length_drop, ← hn, List.length_cons]; omega)
            (rest.drop (utf8_seq_len b - 1)) hvd (k' + 1 - utf8_seq_len b) hk2 rfl
          refine ⟨utf8_seq_len b + c', by omega, by omega, ?_, ?_⟩
          · rw [utf8_buf_scan_cons, if_neg h1]
            have m1 : min (utf8_seq_len b - 1) k' = utf8_seq_len b - 1 := by omega
            have m2 : min k' (utf8_seq_len b - 1) = utf8_seq_len b - 1 := by omega
            have ht : utf8_trail_all b 1 ((rest.take k').take (utf8_seq_len b - 1)) = true := by
              simp only [List.take_take, m1, m2]
              exact h2
            rw [ht]
            simp only [Bool.not_true, Bool.false_eq_true, if_false]
            have hl : ¬ (rest.take k').length < utf8_seq_len b - 1 := by
              simp only [List.length_take]; omega
            rw [if_neg hl]
            have hdt : (rest.take k').drop (utf8_seq_len b - 1)
                = (rest.drop (utf8_seq_len b - 1)).take (k' + 1 - utf8_seq_len b) := by
              rw [List.drop_take]
              congr 1
              omega
            rw [hdt, hc3]
            simp only [Prod.mk.injEq, true_and]
            by_cases hck : c' = k' + 1 - utf8_seq_len b
            · rw [if_pos hck, if_pos (by omega)]
            · rw [if_neg hck, if_neg (by omega)]
          · have : (b :: rest).drop (utf8_seq_len b + c')
                = (rest.drop (utf8_seq_len b - 1)).drop c' := by
              rw [List.drop_drop]
              obtain ⟨m, hm⟩ : ∃ m, utf8_seq_len b = m + 1 := ⟨utf8_seq_len b - 1, by omega⟩
              rw [hm]
              simp only [Nat.add_sub_cancel]
              rw [show m + 1 + c' = (m + c') + 1 by omega, List.drop_succ_cons]
            rw [this]
            exact hc4

theorem utf8_buf_scan_le (x : List Byte) : (utf8_buf_scan x).1 ≤ x.length := by
  generalize hn : x.length = n
  induction n using Nat.strong_induction_on generalizing x with
  | _ n ih =>
    cases x with
    | nil => simp [utf8_buf_scan_nil]
    | cons b rest =>
      rw [utf8_buf_scan_cons]
      split_ifs with h1 h2 h3
      · simp
      · simp
      · simp
      · have := ih (rest.drop (utf8_seq_len b - 1)).length
          (by simp only [List.length_drop, ← hn, List.length_cons]; omega) _ rfl
        simp only [List.length_drop, List.length_cons] at this hn ⊢
        omega

/-- The service `utf8_copy` behaves as claim C10 assumes. -/
theorem utf8_copy_copies : copies_utf8 utf8_copy := by
  refine ⟨?_, ?_, ?_⟩
  · intro lenient
    cases lenient <;> decide
  · intro icd buf _ hlen _
    have hle := utf8_buf_scan_le buf
    have hn : ¬ BUFFER_SIZE < (utf8_buf_scan buf).1 := by omega
    simp [utf8_copy, hn]
  · intro icd
    exact ⟨rfl, rfl⟩

/-- A round of `bom_strip` with conversion from UTF-8, when the buffer and
the stream together hold well-formed text `y` and the service behaves as
`copies_utf8` says: the round does not fail; when `y` is empty it is the last
one and writes nothing; otherwise it writes the first `c` bytes of `y`, with
`0 < c`, and keeps fewer than 4 bytes, so that the buffer and the stream
together hold the rest of `y`. -/
theorem strip_round_utf8 {σ : Type} (svc : iconv_service σ) (hsvc : copies_utf8 svc)
    (lenient : Bool) (s : strip_state σ) (hv : valid_utf8 (s.ibuf ++ s.fp))
    (hlen : s.ibuf.length ≤ BUFFER_SIZE) :
    (s.ibuf ++ s.fp = [] →
      ∃ s', strip_round svc lenient true s = some (.ok (s', true)) ∧ s'.out = s.out)
    ∧ (s.ibuf ++ s.fp ≠ [] →
      ∃ s' c, strip_round svc lenient true s = some (.ok (s', false))
        ∧ 0 < c ∧ c ≤ (s.ibuf ++ s.fp).length
        ∧ s'.out = s.out ++ (s.ibuf ++ s.fp).take c
        ∧ s'.ibuf ++ s'.fp = (s.ibuf ++ s.fp).drop c
        ∧ s'.ibuf.length < 4
        ∧ valid_utf8 (s'.ibuf ++ s'.fp)) := by
  obtain ⟨hopen, hconv, hflush⟩ := hsvc
  constructor
  · intro hy
    obtain ⟨h1, h2⟩ := List.append_eq_nil.1 hy
    unfold strip_round
    rw [h1, h2, fill_loop_nil]
    simp only [List.length_nil, decide_True, Bool.not_true, Bool.false_eq_true, if_false,
      if_true, (hflush s.icd).2]
    exact ⟨_, rfl, by simp [finish_round, (hflush s.icd).1]⟩
  · intro hy
    obtain ⟨short', hf⟩ := fill_loop_eq (BUFFER_SIZE + 1) s.short s.fp s.ibuf (by omega)
    have hbuf : s.ibuf ++ s.fp.take (BUFFER_SIZE - s.ibuf.length)
        = (s.ibuf ++ s.fp).take BUFFER_SIZE := by
      rw [List.take_append_eq_append_take, List.take_of_length_le hlen]
    have hfp : s.fp.drop (BUFFER_SIZE - s.ibuf.length) = (s.ibuf ++ s.fp).drop BUFFER_SIZE := by
      rw [List.drop_append_eq_append_drop, List.drop_eq_nil_of_le hlen, List.nil_append]
    rw [hbuf, hfp] at hf
    generalize hyd : s.ibuf ++ s.fp = y at hv hy hf ⊢
    have hypos : 0 < y.length := List.length_pos.2 hy
    obtain ⟨c, hc1, hc2, hc3, hc4⟩ :=
      utf8_buf_scan_take y hv (min BUFFER_SIZE y.length) (Nat.min_le_right _ _)
    have htk : y.take (min BUFFER_SIZE y.length) = y.take BUFFER_SIZE := by
      rcases Nat.le_total BUFFER_SIZE y.length with h | h
      · rw [Nat.min_eq_left h]
      · rw [Nat.min_eq_right h, List.take_of_length_le h, List.take_of_length_le (le_refl _)]
    rw [htk] at hc3
    have hfull : y.length ≤ BUFFER_SIZE → c = min BUFFER_SIZE y.length := by
      intro h
      rw [List.take_of_length_le h] at hc3
      unfold valid_utf8 at hv
      rw [hv] at hc3
      simp only [Prod.mk.injEq] at hc3
      rw [Nat.min_eq_right h]
      exact hc3.1.symm
    have hBpos : 0 < BUFFER_SIZE := by decide
    have hcpos : 0 < c := by
      rcases Nat.le_total y.length BUFFER_SIZE with h | h
      · have := hfull h
        rw [Nat.min_eq_right h] at this
        omega
      · rw [Nat.min_eq_left h] at hc2
        simp only [BUFFER_SIZE] at hc2
        omega
    have hbne : y.take BUFFER_SIZE ≠ [] := by
      intro h
      have := congrArg List.length h
      simp only [List.length_take, List.length_nil] at this
      omega
    have hblen : (y.take BUFFER_SIZE).length = min BUFFER_SIZE y.length := by
      simp only [List.length_take]
    have hnoseq : (utf8_buf_scan (y.take BUFFER_SIZE)).2 ≠ some .EILSEQ := by
      rw [hc3]
      simp only []
      split_ifs <;> simp
    obtain ⟨k1, k2, k3⟩ := hconv s.icd (y.take BUFFER_SIZE) hbne
      (by rw [hblen]; exact Nat.min_le_left _ _) hnoseq
    rw [hc3] at k1 k2 k3
    simp only [] at k1 k2 k3
    have hdone : decide ((y.take BUFFER_SIZE).length = 0) = false := by
      rw [hblen]
      exact decide_eq_false (by omega)
    have hres : (List.drop c (y.take BUFFER_SIZE)).take (min BUFFER_SIZE y.length - c)
        ++ y.drop BUFFER_SIZE = y.drop c := by
      rw [List.take_of_length_le (by simp only [List.length_drop, List.length_take]; omega)]
      exact drop_take_append_drop y BUFFER_SIZE c (by rw [hblen]; exact hc1)
    have hout : (y.take BUFFER_SIZE).take c = y.take c := by
      rw [List.take_take]
      congr 1
      have := Nat.min_le_left BUFFER_SIZE y.length
      omega
    refine ⟨finish_round s short' (y.drop BUFFER_SIZE) (y.take BUFFER_SIZE)
      (svc.iconv s.icd (some (y.take BUFFER_SIZE)) BUFFER_SIZE).icd c
      (min BUFFER_SIZE y.length - c)
      (svc.iconv s.icd (some (y.take BUFFER_SIZE)) BUFFER_SIZE).output, c, ?_, hcpos,
      le_trans hc1 (Nat.min_le_right _ _), ?_, ?_, ?_, ?_⟩
    · unfold strip_round
      rw [hf]
      by_cases hcm : c = min BUFFER_SIZE y.length
      · rw [if_pos hcm] at k3
        simp only [hdone, Bool.not_false, if_true]
        simp only [k1, k3, hblen]
      · rw [if_neg hcm] at k3
        have heof : decide (s.fp.length < BUFFER_SIZE - s.ibuf.length) = false := by
          apply decide_eq_false
          intro h
          apply hcm
          apply hfull
          rw [← hyd, List.length_append]
          omega
        simp only [hdone, Bool.not_false, if_true]
        simp only [k1, k3, hblen, heof, Bool.not_false, Bool.and_self, if_true]
    · simp only [finish_round, k2, hout]
    · simp only [finish_round]
      exact hres
    · simp only [finish_round, List.length_take, List.length_drop]
      omega
    · simp only [finish_round]
      rw [hres]
      exact hc4

/-- The main loop of `bom_strip` with conversion from UTF-8, under the
assumptions of `strip_round_utf8`: it ends normally and has then written the
buffer followed by the stream. -/
theorem strip_loop_utf8 {σ : Type} (svc : iconv_service σ) (hsvc : copies_utf8 svc)
    (lenient : Bool) (fuel : Nat) (s : strip_state σ) (hv : valid_utf8 (s.ibuf ++ s.fp))
    (hlen : s.ibuf.length ≤ BUFFER_SIZE) (hfuel : (s.ibuf ++ s.fp).length < fuel) :
    ∃ s', strip_loop svc lenient true fuel s = some (.ok s')
      ∧ s'.out = s.out ++ (s.ibuf ++ s.fp) := by
  induction fuel generalizing s with
  | zero => omega
  | succ fuel ih =>
    obtain ⟨hr0, hr1⟩ := strip_round_utf8 svc hsvc lenient s hv hlen
    by_cases hy : s.ibuf ++ s.fp = []
    · obtain ⟨s', h1, h2⟩ := hr0 hy
      refine ⟨s', ?_, ?_⟩
      · rw [strip_loop, h1]
        simp
      · rw [h2, hy, List.append_nil]
    · obtain ⟨s', c, h1, hc0, hc1, h2, h3, h4, h5⟩ := hr1 hy
      have hm : (s'.ibuf ++ s'.fp).length < fuel := by
        rw [h3, List.length_drop]
        omega
      obtain ⟨s'', h6, h7⟩ := ih s' h5 (by simp only [BUFFER_SIZE]; omega) hm
      refine ⟨s'', ?_, ?_⟩
      · rw [strip_loop, h1]
        simpa using h6
      · rw [h7, h2, h3, List.append_assoc, List.take_append_drop]

theorem resolved_utf8 (text : List Byte) (p : Bool) :
    resolved (0xef :: 0xbb :: 0xbf :: text) p = BOM_TYPE_UTF_8 := by
  have h6 : ¬ sig BOM_TYPE_UTF_32LE <+: (0xef :: 0xbb :: 0xbf :: text) := by
    show ¬ ([0xff, 0xfe, 0x00, 0x00] : List Byte) <+: (0xef :: 0xbb :: 0xbf :: text)
    simp
  have h1 : ¬ sig BOM_TYPE_UTF_7 <+: (0xef :: 0xbb :: 0xbf :: text) := by
    show ¬ ([0x2b, 0x2f, 0x76] : List Byte) <+: (0xef :: 0xbb :: 0xbf :: text)
    simp
  have h2 : sig BOM_TYPE_UTF_8 <+: (0xef :: 0xbb :: 0xbf :: text) := by
    show ([0xef, 0xbb, 0xbf] : List Byte) <+: (0xef :: 0xbb :: 0xbf :: text)
    simp
  unfold resolved
  rw [if_neg h6, if_neg h1, if_pos h2]

theorem feed_count_utf8 (text : List Byte) :
    feed_count (0xef :: 0xbb :: 0xbf :: text) [] = 3 := by
  simp only [feed_count, List.nil_append, List.cons_append]
  rw [if_neg (by decide), if_neg (by decide), if_pos (by decide)]

/-! ## The claims -/

/-- C1: on every byte stream `x`, for both values of `prefer32` and with no
expected type, `read_bom` returns a type `t`; `t` is NONE exactly when no
signature other than NONE is a prefix of `x`; when `t` is not NONE its byte
sequence is a prefix of `x`; and two different signatures other than NONE are
both prefixes of `x` only when they are UTF-16LE and UTF-32LE, in which case
`t` is UTF-32LE when `prefer32` is set and UTF-16LE otherwise. -/
theorem C1_read_bom_resolves (x : List Byte) (prefer32 : Bool) :
    ∃ t fp input, read_bom x init_bom_input 0 prefer32 = .ok (t, fp, input)
      ∧ (t = BOM_TYPE_NONE ↔
          ∀ i, 1 ≤ i → i < BOM_TYPE_MAX → ¬ (bom_types_at i).bytes <+: x)
      ∧ (t ≠ BOM_TYPE_NONE → (bom_types_at t).bytes <+: x)
      ∧ (∀ i j, 1 ≤ i → i < j → j < BOM_TYPE_MAX →
          (bom_types_at i).bytes <+: x → (bom_types_at j).bytes <+: x →
            i = BOM_TYPE_UTF_16LE ∧ j = BOM_TYPE_UTF_32LE
            ∧ t = if prefer32 then BOM_TYPE_UTF_32LE else BOM_TYPE_UTF_16LE) := by
  refine ⟨_, _, _, read_bom_eq_zero x prefer32, ?_, ?_, ?_⟩
  · simp only [sig_eq]
    constructor
    · intro h i hi1 hi2 hp
      simp only [BOM_TYPE_MAX] at hi2
      have hu := utf16le_of_utf32le x
      unfold resolved BOM_TYPE_NONE BOM_TYPE_UTF_7 BOM_TYPE_UTF_8 BOM_TYPE_UTF_16BE
        BOM_TYPE_UTF_16LE BOM_TYPE_UTF_32BE BOM_TYPE_UTF_32LE BOM_TYPE_GB18030 at h
      split_ifs at h
      interval_cases i <;> simp_all
    · intro h
      have h1 := h 1 (by omega) (by decide)
      have h2 := h 2 (by omega) (by decide)
      have h3 := h 3 (by omega) (by decide)
      have h4 := h 4 (by omega) (by decide)
      have h5 := h 5 (by omega) (by decide)
      have h6 := h 6 (by omega) (by decide)
      have h7 := h 7 (by omega) (by decide)
      simp [resolved, BOM_TYPE_NONE, BOM_TYPE_UTF_7, BOM_TYPE_UTF_8, BOM_TYPE_UTF_16BE,
        BOM_TYPE_UTF_16LE, BOM_TYPE_UTF_32BE, BOM_TYPE_UTF_32LE, BOM_TYPE_GB18030,
        h1, h2, h3, h4, h5, h6, h7]
  · simp only [sig_eq]
    intro _
    have hu := utf16le_of_utf32le x
    unfold resolved BOM_TYPE_NONE BOM_TYPE_UTF_7 BOM_TYPE_UTF_8 BOM_TYPE_UTF_16BE
      BOM_TYPE_UTF_16LE BOM_TYPE_UTF_32BE BOM_TYPE_UTF_32LE BOM_TYPE_GB18030 at *
    split_ifs <;> simp_all
  · simp only [sig_eq]
    intro i j hi hij hj hpi hpj
    simp only [BOM_TYPE_MAX] at hj
    have h46 : i = 4 ∧ j = 6 := by
      by_contra hne
      exact prefix_exclusive x i j ⟨hi, by omega⟩ ⟨by omega, hj⟩ (by omega) hne (by omega) hpi hpj
    obtain ⟨rfl, rfl⟩ := h46
    simp [resolved, BOM_TYPE_UTF_16LE, BOM_TYPE_UTF_32LE, hpj]

/-- C2 (refuted as stated): the stream that `bom_print` emits for UTF-32LE,
read with `prefer32` not set, resolves to UTF-16LE and not to UTF-32LE. -/
theorem C2_counterexample :
    bom_print BOM_TYPE_UTF_32LE = [0xff, 0xfe, 0x00, 0x00]
      ∧ (read_bom (bom_print BOM_TYPE_UTF_32LE) init_bom_input 0 false).map Prod.fst
        = .ok BOM_TYPE_UTF_16LE
      ∧ ¬ (read_bom (bom_print BOM_TYPE_UTF_32LE) init_bom_input 0 false).map Prod.fst
        = .ok BOM_TYPE_UTF_32LE := by
  decide

/-- C2 (amended): for every catalog signature `S` other than NONE, `read_bom`
with no expected type on the stream made of exactly the bytes `bom_print` emits
for `S` resolves to `S`, and `bom_detect` prints the name of `S`, except that
for `S` = UTF-32LE with `prefer32` not set it resolves to UTF-16LE. -/
theorem C2_print_detect (S : Nat) (prefer32 : Bool) (h1 : 1 ≤ S) (h2 : S < BOM_TYPE_MAX) :
    (read_bom (bom_print S) init_bom_input 0 prefer32).map Prod.fst
        = .ok (if S = BOM_TYPE_UTF_32LE ∧ prefer32 = false then BOM_TYPE_UTF_16LE else S)
      ∧ bom_detect (bom_print S) 0 prefer32
        = .ok (bom_types_at
            (if S = BOM_TYPE_UTF_32LE ∧ prefer32 = false then BOM_TYPE_UTF_16LE else S)).name := by
  simp only [BOM_TYPE_MAX] at h2
  interval_cases S <;> cases prefer32 <;> decide

theorem C2_print_detect_witness :
    (read_bom (bom_print 6) init_bom_input 0 true).map Prod.fst
        = .ok (if 6 = BOM_TYPE_UTF_32LE ∧ true = false then BOM_TYPE_UTF_16LE else 6)
      ∧ bom_detect (bom_print 6) 0 true
        = .ok (bom_types_at
            (if 6 = BOM_TYPE_UTF_32LE ∧ true = false then BOM_TYPE_UTF_16LE else 6)).name :=
  C2_print_detect 6 true (by decide) (by decide)

/-- C3: every stream that starts with FF FE 00 00, whatever follows, resolves
(with no expected type) to UTF-32LE when `prefer32` is set and to UTF-16LE when
it is not. -/
theorem C3_ff_fe_00_00 (rest : List Byte) (prefer32 : Bool) :
    ∃ fp input, read_bom (0xff :: 0xfe :: 0x00 :: 0x00 :: rest) init_bom_input 0 prefer32
      = .ok (if prefer32 then BOM_TYPE_UTF_32LE else BOM_TYPE_UTF_16LE, fp, input) := by
  rw [read_bom_eq_zero, resolved_ff_fe, if_pos (by simp)]
  exact ⟨_, _, rfl⟩

/-- C4: every stream that starts with FF FE and does not go on with 00 00 (the
third byte is not 00, or it is 00 and the fourth is not 00, or the stream ends
before a fourth byte) resolves, with no expected type, to UTF-16LE for both
values of `prefer32`. -/
theorem C4_ff_fe_other (r : List Byte) (prefer32 : Bool)
    (h : (∃ c r', r = c :: r' ∧ c ≠ 0x00) ∨ (∃ d r', r = 0x00 :: d :: r' ∧ d ≠ 0x00)
      ∨ r.length < 2) :
    ∃ fp input, read_bom (0xff :: 0xfe :: r) init_bom_input 0 prefer32
      = .ok (BOM_TYPE_UTF_16LE, fp, input) := by
  have hn : ¬ ([0x00, 0x00] : List Byte) <+: r := by
    rintro ⟨t, rfl⟩
    rcases h with ⟨c, r', e, hc⟩ | ⟨d, r', e, hd⟩ | hl
    · simp at e; exact hc e.1.symm
    · simp at e; exact hd e.1.symm
    · simp at hl; omega
  rw [read_bom_eq_zero, resolved_ff_fe, if_neg hn]
  exact ⟨_, _, rfl⟩

theorem C4_ff_fe_other_witness :
    ((∃ c r', ([0x00, 0x41] : List Byte) = c :: r' ∧ c ≠ 0x00)
        ∨ (∃ d r', ([0x00, 0x41] : List Byte) = 0x00 :: d :: r' ∧ d ≠ 0x00)
        ∨ ([0x00, 0x41] : List Byte).length < 2)
      ∧ ∃ fp input, read_bom (0xff :: 0xfe :: [0x00, 0x41]) init_bom_input 0 true
          = .ok (BOM_TYPE_UTF_16LE, fp, input) :=
  ⟨Or.inr (Or.inl ⟨0x41, [], rfl, by decide⟩),
   C4_ff_fe_other [0x00, 0x41] true (Or.inr (Or.inl ⟨0x41, [], rfl, by decide⟩))⟩

/-- C5: for every byte stream and both values of `prefer32`, the loop of
`read_bom` ends, and after the disambiguation step the NONE sentinel is
complete, `num_complete` is 1 or 2, and at most one signature other than NONE
is complete; so neither the assertion on the sentinel nor the
">2 BOM type matches" error is reached, and `read_bom` with no expected type
returns one catalog index below `BOM_TYPE_MAX`. -/
theorem C5_resolution_invariant (x : List Byte) (prefer32 : Bool) :
    ∃ fp input, read_bom_loop x init_bom_input = .ok (fp, input)
      ∧ (disambiguate input prefer32).match_state.getD BOM_TYPE_NONE 0 = MATCH_COMPLETE
      ∧ ((disambiguate input prefer32).num_complete = 1
          ∨ (disambiguate input prefer32).num_complete = 2)
      ∧ (∀ i j, 1 ≤ i → i < BOM_TYPE_MAX → 1 ≤ j → j < BOM_TYPE_MAX →
          (disambiguate input prefer32).match_state.getD i 0 = MATCH_COMPLETE →
          (disambiguate input prefer32).match_state.getD j 0 = MATCH_COMPLETE → i = j)
      ∧ select_bom_type (disambiguate input prefer32) ≠ .error .assert_none_complete
      ∧ select_bom_type (disambiguate input prefer32) ≠ .error .too_many_matches
      ∧ ∃ t, t < BOM_TYPE_MAX
          ∧ read_bom x init_bom_input 0 prefer32 = .ok (t, fp, disambiguate input prefer32) := by
  have hn : ([] : List Byte).length + feed_count x [] ≤ BUFFER_SIZE := by
    have := feed_count_nil_le x
    simp only [List.length_nil, BUFFER_SIZE]
    omega
  have hl := read_bom_loop_fed x [] hn
  rw [← init_eq_fed_input] at hl
  simp only [List.nil_append] at hl
  obtain ⟨hsel, hnone, hnum, hone⟩ := resolve_fed (x.take (feed_count x [])) prefer32
  refine ⟨_, _, hl, hnone, ?_, ?_, ?_, ?_, ?_⟩
  · rw [hnum]
    split_ifs
    · exact Or.inl rfl
    · exact Or.inr rfl
  · intro i j hi1 hi2 hj1 hj2 hi hj
    rw [(hone i hi1 hi2).1 hi, (hone j hj1 hj2).1 hj]
  · rw [hsel]; simp
  · rw [hsel]; simp
  · refine ⟨resolved x prefer32, resolved_lt x prefer32, ?_⟩
    exact read_bom_eq_zero x prefer32

/-- C6: for every byte stream `x`, both values of `prefer32` and every mask
`E` of expected types, with `t` the type `read_bom` returns for the empty mask:
`read_bom` ends with exit status `EX_EXPECT_FAIL` (2) exactly when `E` is not
empty and bit `t` of `E` is clear, and then the ending is the
"unexpected BOM type" one; otherwise it returns what it returns for the empty
mask.  With `E` = {UTF-8}, a stream that begins FE FF ends with status 2,
which is not the generic status 1. -/
theorem C6_expected_types (x : List Byte) (prefer32 : Bool) (E : Nat) :
    ∃ t fp input, read_bom x init_bom_input 0 prefer32 = .ok (t, fp, input)
      ∧ ((∃ e, read_bom x init_bom_input E prefer32 = .error e ∧ e.status = EX_EXPECT_FAIL)
          ↔ (E ≠ 0 ∧ E.testBit t = false))
      ∧ (E ≠ 0 ∧ E.testBit t = false →
          read_bom x init_bom_input E prefer32 = .error .unexpected_bom_type)
      ∧ (¬ (E ≠ 0 ∧ E.testBit t = false) →
          read_bom x init_bom_input E prefer32 = .ok (t, fp, input))
      ∧ EX_EXPECT_FAIL = 2
      ∧ (∀ rest, ∃ e, read_bom (0xfe :: 0xff :: rest) init_bom_input
            (1 <<< BOM_TYPE_UTF_8) prefer32 = .error e
          ∧ e.status = EX_EXPECT_FAIL ∧ e.status ≠ 1) := by
  refine ⟨_, _, _, read_bom_eq_zero x prefer32, ?_, ?_, ?_, rfl, ?_⟩
  · rw [read_bom_eq]
    constructor
    · rintro ⟨e, he, _⟩
      by_contra hc
      have hc' : ¬ (E ≠ 0 ∧ E &&& (1 <<< resolved x prefer32) = 0) :=
        fun k => hc ⟨k.1, (mask_eq_zero_iff _ _).1 k.2⟩
      rw [if_neg hc'] at he
      cases he
    · intro h
      rw [if_pos ⟨h.1, (mask_eq_zero_iff _ _).2 h.2⟩]
      exact ⟨_, rfl, rfl⟩
  · intro h
    rw [read_bom_eq, if_pos ⟨h.1, (mask_eq_zero_iff _ _).2 h.2⟩]
  · intro h
    have h' : ¬ (E ≠ 0 ∧ E &&& (1 <<< resolved x prefer32) = 0) :=
      fun k => h ⟨k.1, (mask_eq_zero_iff _ _).1 k.2⟩
    rw [read_bom_eq, if_neg h']
  · intro rest
    have hr : resolved (0xfe :: 0xff :: rest) prefer32 = BOM_TYPE_UTF_16BE := by
      have h6 : ¬ sig BOM_TYPE_UTF_32LE <+: (0xfe :: 0xff :: rest) := by
        show ¬ ([0xff, 0xfe, 0x00, 0x00] : List Byte) <+: (0xfe :: 0xff :: rest)
        simp
      have h1 : ¬ sig BOM_TYPE_UTF_7 <+: (0xfe :: 0xff :: rest) := by
        show ¬ ([0x2b, 0x2f, 0x76] : List Byte) <+: (0xfe :: 0xff :: rest)
        simp
      have h2 : ¬ sig BOM_TYPE_UTF_8 <+: (0xfe :: 0xff :: rest) := by
        show ¬ ([0xef, 0xbb, 0xbf] : List Byte) <+: (0xfe :: 0xff :: rest)
        simp
      have h3 : sig BOM_TYPE_UTF_16BE <+: (0xfe :: 0xff :: rest) := by
        show ([0xfe, 0xff] : List Byte) <+: (0xfe :: 0xff :: rest)
        simp
      unfold resolved
      rw [if_neg h6, if_neg h1, if_neg h2, if_pos h3]
    refine ⟨.unexpected_bom_type, ?_, rfl, by decide⟩
    rw [read_bom_eq, hr, if_pos (by decide)]

/-- C7: for every finite byte stream `x`, every pattern `short` of short
reads and both values of `prefer32`, `bom_strip` without conversion ends
normally (any bound above the length of `x` on the number of rounds is
enough), and the bytes of the resolved BOM followed by what it wrote are
exactly `x`; a stream with no BOM is written unchanged; and the same is written
under any mask of expected types that admits the resolved type. -/
theorem C7_strip_without_conversion {σ : Type} [Inhabited σ] (svc : iconv_service σ)
    (x : List Byte) (short : List Nat) (lenient prefer32 : Bool) (k : Nat) :
    ∃ t fp input out, read_bom x init_bom_input 0 prefer32 = .ok (t, fp, input)
      ∧ bom_strip svc (x.length + 1 + k) x short 0 lenient prefer32 false = some (.ok out)
      ∧ (bom_types_at t).bytes ++ out = x
      ∧ (t = BOM_TYPE_NONE → out = x)
      ∧ (∀ E, ¬ (E ≠ 0 ∧ E.testBit t = false) →
          bom_strip svc (x.length + 1 + k) x short E lenient prefer32 false = some (.ok out)) := by
  refine ⟨_, _, _, x.drop (sig (resolved x prefer32)).length,
    read_bom_eq_zero x prefer32, ?_, ?_, ?_, ?_⟩
  · rw [bom_strip_copy svc x short 0 lenient prefer32 _ (by omega)]
    simp
  · rw [sig_eq]
    exact append_drop_of_isPrefix _ _ (resolved_isPrefix x prefer32)
  · intro h
    rw [h]
    rfl
  · intro E hE
    have hE' : ¬ (E ≠ 0 ∧ E &&& (1 <<< resolved x prefer32) = 0) :=
      fun h => hE ⟨h.1, (mask_eq_zero_iff _ _).1 h.2⟩
    rw [bom_strip_copy svc x short E lenient prefer32 _ (by omega), if_neg hE']

/-- C8: on a stream whose resolved type is NONE, `bom_strip` with conversion
to UTF-8 requested does exactly what it does with conversion not requested,
for every bound on the rounds: the result depends neither on the conversion
service (so none is opened, not even one whose `iconv_open` fails) nor on
`lenient`; and with a bound above the length of the stream the run ends
normally and has written the input unchanged. -/
theorem C8_none_disables_conversion {σ : Type} [Inhabited σ] (svc svc' : iconv_service σ)
    (x : List Byte) (short : List Nat) (E : Nat) (lenient lenient' prefer32 : Bool) (fuel : Nat)
    (h : (read_bom x init_bom_input E prefer32).map Prod.fst = .ok BOM_TYPE_NONE) :
    bom_strip svc fuel x short E lenient prefer32 true
        = bom_strip svc' fuel x short E lenient' prefer32 false
      ∧ (x.length < fuel →
          bom_strip svc fuel x short E lenient prefer32 true = some (.ok x)) := by
  have hres : resolved x prefer32 = BOM_TYPE_NONE
      ∧ ¬ (E ≠ 0 ∧ E &&& (1 <<< resolved x prefer32) = 0) := by
    rw [read_bom_eq] at h
    split_ifs at h with hE
    · cases h
    · simp only [Except.map] at h
      exact ⟨by injection h, hE⟩
  have heq : bom_strip svc fuel x short E lenient prefer32 true
      = bom_strip svc' fuel x short E lenient' prefer32 false := by
    unfold bom_strip
    rw [read_bom_eq, if_neg hres.2]
    simp only [hres.1, if_true, Bool.false_eq_true, if_false]
    rw [strip_loop_copy_indep svc svc' lenient lenient']
  refine ⟨heq, fun hf => ?_⟩
  rw [heq, bom_strip_copy svc' x short E lenient' prefer32 fuel hf, if_neg hres.2, hres.1]
  rfl

theorem C8_none_disables_conversion_witness :
    (read_bom [0x41, 0x42] init_bom_input 0 false).map Prod.fst = .ok BOM_TYPE_NONE
      ∧ (bom_strip utf8_copy 3 [0x41, 0x42] [] 0 false false true
          = bom_strip { iconv_open := fun _ _ => none, iconv := utf8_copy.iconv }
              3 [0x41, 0x42] [] 0 true false false
        ∧ (([0x41, 0x42] : List Byte).length < 3 →
            bom_strip utf8_copy 3 [0x41, 0x42] [] 0 false false true
              = some (.ok [0x41, 0x42]))) :=
  ⟨by decide, C8_none_disables_conversion utf8_copy
    { iconv_open := fun _ _ => none, iconv := utf8_copy.iconv }
    [0x41, 0x42] [] 0 false true false 3 (by decide)⟩

/-- C9: take a round of `bom_strip` with conversion in which, after the fill
(`hfill`), the conversion service reports `EINVAL` (`herr`) while `eof` is set
or the buffer is empty, which makes the round the final one (`hend`).
In strict mode the round, and so the run, ends with the "invalid byte
sequence" error, whose exit status is `EX_ILLEGAL_BYTES` = 3.  In lenient mode
the round does not fail: nothing of the buffer is kept for the next round, and
what is written is what the service produced from the bytes it took; when the
buffer was empty the run ends normally there, and otherwise it ends normally
after one more round, which only flushes the service, unless that flush
reports an error other than `EINVAL` and `EILSEQ`. -/
theorem C9_incomplete_at_end {σ : Type} (svc : iconv_service σ) (s : strip_state σ)
    (short' : List Nat) (fp' : FILE) (ibuf' : List Byte) (eof : Bool)
    (hfill : fill_loop (BUFFER_SIZE + 1) s.short s.fp s.ibuf = some (short', fp', ibuf', eof))
    (herr : (round_iconv svc s ibuf').error = some .EINVAL)
    (hend : eof = true ∨ ibuf' = []) :
    (∃ off, strip_round svc false true s = some (.error (.illegal_bytes off))
        ∧ (∀ fuel, strip_loop svc false true (fuel + 1) s = some (.error (.illegal_bytes off)))
        ∧ (Fatal.illegal_bytes off).status = EX_ILLEGAL_BYTES)
      ∧ EX_ILLEGAL_BYTES = 3
      ∧ ∃ s', strip_round svc true true s = some (.ok (s', decide (ibuf' = [])))
        ∧ s'.ibuf = []
        ∧ s'.out = s.out ++ (round_iconv svc s ibuf').output
        ∧ (ibuf' = [] → ∀ fuel, strip_loop svc true true (fuel + 1) s = some (.ok s'))
        ∧ (ibuf' ≠ [] →
            (svc.iconv (round_iconv svc s ibuf').icd none BUFFER_SIZE).error ≠ some .other →
            ∀ fuel, ∃ s'', strip_loop svc true true (fuel + 2) s = some (.ok s'')
              ∧ s''.out = s.out ++ (round_iconv svc s ibuf').output
                  ++ (svc.iconv (round_iconv svc s ibuf').icd none BUFFER_SIZE).output) := by
  have hcond : (!decide (ibuf'.length = 0) && !eof) = false := by
    rcases hend with h | h
    · simp [h]
    · simp [h]
  have hdone : decide (ibuf'.length = 0) = decide (ibuf' = []) := by
    simp only [decide_eq_decide, List.length_eq_zero]
  have hstrict : strip_round svc false true s = some (.error (.illegal_bytes
      (s.offset + if (!decide (ibuf'.length = 0)) = true
        then (round_iconv svc s ibuf').consumed else 0))) := by
    unfold strip_round
    rw [hfill]
    simp only [if_true, round_iconv_eq, herr, hcond, Bool.false_eq_true, if_false]
  have hlenient : strip_round svc true true s = some (.ok
      (finish_round s short' fp' ibuf' (round_iconv svc s ibuf').icd
        ((if (!decide (ibuf'.length = 0)) = true then (round_iconv svc s ibuf').consumed else 0)
          + (ibuf'.length - if (!decide (ibuf'.length = 0)) = true
              then (round_iconv svc s ibuf').consumed else 0))
        0 (round_iconv svc s ibuf').output, decide (ibuf' = []))) := by
    unfold strip_round
    rw [hfill, ← hdone]
    simp only [if_true, round_iconv_eq, herr, hcond, Bool.false_eq_true, if_false]
  refine ⟨⟨_, hstrict, ?_, rfl⟩, rfl, _, hlenient, ?_, ?_, ?_, ?_⟩
  · intro fuel
    unfold strip_loop
    rw [hstrict]
  · simp [finish_round]
  · simp [finish_round]
  · intro he fuel
    unfold strip_loop
    rw [hlenient]
    simp [he]
  · intro hne hflush fuel
    have heof : eof = true := by
      rcases hend with h | h
      · exact h
      · exact absurd h hne
    subst heof
    have hfp := fill_loop_eof _ _ _ _ _ _ hfill
    subst hfp
    have hround2 : ∃ s'', strip_round svc true true
        (finish_round s short' [] ibuf' (round_iconv svc s ibuf').icd
          ((if (!decide (ibuf'.length = 0)) = true then (round_iconv svc s ibuf').consumed else 0)
            + (ibuf'.length - if (!decide (ibuf'.length = 0)) = true
                then (round_iconv svc s ibuf').consumed else 0))
          0 (round_iconv svc s ibuf').output) = some (.ok (s'', true))
        ∧ s''.out = s.out ++ (round_iconv svc s ibuf').output
            ++ (svc.iconv (round_iconv svc s ibuf').icd none BUFFER_SIZE).output := by
      unfold strip_round
      simp only [finish_round, List.take_zero, fill_loop_nil, List.length_nil, decide_True,
        Bool.not_true, Bool.false_eq_true, if_false, if_true, Bool.false_and, Nat.sub_zero,
        Nat.sub_self, Nat.add_zero, List.drop_nil]
      cases hfl : (svc.iconv (round_iconv svc s ibuf').icd none BUFFER_SIZE).error with
      | none => exact ⟨_, rfl, rfl⟩
      | some e =>
        cases e with
        | EINVAL => exact ⟨_, rfl, rfl⟩
        | EILSEQ => exact ⟨_, rfl, rfl⟩
        | other => exact absurd hfl hflush
    obtain ⟨s'', h2, hout⟩ := hround2
    refine ⟨s'', ?_, hout⟩
    rw [strip_loop, hlenient]
    simp only [decide_eq_false hne, Bool.false_eq_true, if_false]
    rw [strip_loop, h2]
    simp

theorem C9_incomplete_at_end_witness :
    (∃ off, strip_round utf8_copy false true
          { fp := [], short := [], ibuf := [0x41, 0xe2, 0x82], offset := 3, icd := (), out := [] }
          = some (.error (.illegal_bytes off))
        ∧ (∀ fuel, strip_loop utf8_copy false true (fuel + 1)
            { fp := [], short := [], ibuf := [0x41, 0xe2, 0x82], offset := 3, icd := (), out := [] }
            = some (.error (.illegal_bytes off)))
        ∧ (Fatal.illegal_bytes off).status = EX_ILLEGAL_BYTES)
      ∧ EX_ILLEGAL_BYTES = 3
      ∧ ∃ s', strip_round utf8_copy true true
            { fp := [], short := [], ibuf := [0x41, 0xe2, 0x82], offset := 3, icd := (), out := [] }
            = some (.ok (s', decide (([0x41, 0xe2, 0x82] : List Byte) = [])))
        ∧ s'.ibuf = []
        ∧ s'.out = [] ++ (round_iconv utf8_copy
            { fp := [], short := [], ibuf := [0x41, 0xe2, 0x82], offset := 3, icd := (), out := [] }
            [0x41, 0xe2, 0x82]).output
        ∧ (([0x41, 0xe2, 0x82] : List Byte) = [] → ∀ fuel, strip_loop utf8_copy true true (fuel + 1)
            { fp := [], short := [], ibuf := [0x41, 0xe2, 0x82], offset := 3, icd := (), out := [] }
            = some (.ok s'))
        ∧ (([0x41, 0xe2, 0x82] : List Byte) ≠ [] →
            (utf8_copy.iconv (round_iconv utf8_copy
              { fp := [], short := [], ibuf := [0x41, 0xe2, 0x82], offset := 3, icd := (),
                out := [] } [0x41, 0xe2, 0x82]).icd none BUFFER_SIZE).error ≠ some .other →
            ∀ fuel, ∃ s'', strip_loop utf8_copy true true (fuel + 2)
                { fp := [], short := [], ibuf := [0x41, 0xe2, 0x82], offset := 3, icd := (),
                  out := [] } = some (.ok s'')
              ∧ s''.out = [] ++ (round_iconv utf8_copy
                  { fp := [], short := [], ibuf := [0x41, 0xe2, 0x82], offset := 3, icd := (),
                    out := [] } [0x41, 0xe2, 0x82]).output
                  ++ (utf8_copy.iconv (round_iconv utf8_copy
                      { fp := [], short := [], ibuf := [0x41, 0xe2, 0x82], offset := 3, icd := (),
                        out := [] } [0x41, 0xe2, 0x82]).icd none BUFFER_SIZE).output) :=
  C9_incomplete_at_end utf8_copy
    { fp := [], short := [], ibuf := [0x41, 0xe2, 0x82], offset := 3, icd := (), out := [] }
    [] [] [0x41, 0xe2, 0x82] true (by decide) (by decide) (Or.inl rfl)

/-- Two whole runs on the UTF-8 BOM followed by `A` and a truncated
sequence: in strict mode the run ends with the "invalid byte sequence" error
at file offset 4, in lenient mode it ends normally and has written `A`. -/
theorem truncated_utf8_run :
    bom_strip utf8_copy 5 [0xef, 0xbb, 0xbf, 0x41, 0xe2, 0x82] [] 0 false false true
        = some (.error (.illegal_bytes 4))
      ∧ bom_strip utf8_copy 5 [0xef, 0xbb, 0xbf, 0x41, 0xe2, 0x82] [] 0 true false true
        = some (.ok [0x41]) := by
  decide

/-- C10: let the conversion service behave as `copies_utf8` says (from UTF-8
to UTF-8 it copies the complete sequences of its input and reports `EINVAL`
for a truncated sequence at the end, which it leaves; a `NULL` input produces
nothing).  Then for every well-formed UTF-8 text, of any length, every pattern
of short reads and both values of `lenient` and of `prefer32`, `bom_strip` with
conversion, on the UTF-8 BOM EF BB BF followed by the text, ends normally (any
bound above the length of the text on the number of rounds is enough) and has
written exactly the text. -/
theorem C10_strip_utf8_text {σ : Type} [Inhabited σ] (svc : iconv_service σ)
    (hsvc : copies_utf8 svc) (text : List Byte) (hvalid : valid_utf8 text)
    (short : List Nat) (lenient prefer32 : Bool) (k : Nat) :
    bom_strip svc (text.length + 1 + k) ([0xef, 0xbb, 0xbf] ++ text) short 0 lenient prefer32 true
      = some (.ok text) := by
  have hopen := hsvc.1 lenient
  obtain ⟨icd, hicd⟩ := Option.isSome_iff_exists.1 hopen
  unfold bom_strip
  simp only [List.cons_append, List.nil_append]
  rw [read_bom_eq_zero, resolved_utf8, feed_count_utf8]
  have henc : (bom_types_at BOM_TYPE_UTF_8).encoding.getD "" = "UTF-8" := by decide
  have hne : ¬ BOM_TYPE_UTF_8 = BOM_TYPE_NONE := by decide
  simp only [if_neg hne, if_true, henc, hicd]
  obtain ⟨hb, hl⟩ := disambiguate_buf
    (fed_input (List.take 3 (0xef :: 0xbb :: 0xbf :: text))) prefer32
  have hres := residue_eq (List.take 3 (0xef :: 0xbb :: 0xbf :: text))
    (sig BOM_TYPE_UTF_8).length (by simp [sig, bom_types_at, bom_types, BOM_TYPE, BOM_TYPE_UTF_8])
  simp only [residue_len, hb, hl, len_eq_length]
  simp only [fed_input] at hres ⊢
  rw [hres]
  have hib : List.drop (sig BOM_TYPE_UTF_8).length (List.take 3 (0xef :: 0xbb :: 0xbf :: text))
      = [] := by
    simp [sig, bom_types_at, bom_types, BOM_TYPE, BOM_TYPE_UTF_8]
  have hfp : List.drop 3 (0xef :: 0xbb :: 0xbf :: text) = text := rfl
  rw [hib, hfp]
  obtain ⟨s', hs', hout⟩ := strip_loop_utf8 svc hsvc lenient (text.length + 1 + k)
    { fp := text, short := short, ibuf := [], offset := (sig BOM_TYPE_UTF_8).length,
      icd := icd, out := [] }
    (by simpa using hvalid) (by simp) (by simp only [List.nil_append]; omega)
  rw [hs']
  simp only [hout, List.nil_append]

set_option maxRecDepth 20000 in
theorem C10_strip_utf8_text_witness :
    bom_strip utf8_copy
        ((List.replicate 1023 0x41 ++ [0xe2, 0x82, 0xac] : List Byte).length + 1 + 0)
        ([0xef, 0xbb, 0xbf] ++ (List.replicate 1023 0x41 ++ [0xe2, 0x82, 0xac]))
        [0, 2] 0 false false true
      = some (.ok (List.replicate 1023 0x41 ++ [0xe2, 0x82, 0xac])) :=
  C10_strip_utf8_text utf8_copy utf8_copy_copies
    (List.replicate 1023 0x41 ++ [0xe2, 0x82, 0xac]) (by decide) [0, 2] false false 0

/-- C11: on the empty stream `read_bom` with no expected type returns NONE
for both values of `prefer32`, reads nothing and leaves the `bom_input` as
`init_bom_input` made it, with `len` = 0; `bom_print` writes no byte for NONE,
so `bom_detect` on what it writes prints the name of NONE. -/
theorem C11_empty_stream (prefer32 : Bool) :
    read_bom [] init_bom_input 0 prefer32 = .ok (BOM_TYPE_NONE, [], init_bom_input)
      ∧ init_bom_input.len = 0
      ∧ bom_print BOM_TYPE_NONE = []
      ∧ bom_detect (bom_print BOM_TYPE_NONE) 0 prefer32 = .ok (bom_types_at BOM_TYPE_NONE).name
      ∧ (bom_types_at BOM_TYPE_NONE).name = "NONE" := by
  cases prefer32 <;> exact ⟨rfl, rfl, rfl, rfl, rfl⟩

/-- C12: for every string `name`, `bom_type_from_name` returns the index `i`
exactly when `i` is a catalog index whose entry has the name `name`, compared
character for character; it ends with the "unknown BOM type" error, whose exit
status is 1, exactly when no entry has that name, and it ends in no other way;
and on the name of entry `i` it returns `i`, for every catalog index `i`. -/
theorem C12_bom_type_from_name (name : String) :
    (∀ i, bom_type_from_name name = .ok i ↔ i < BOM_TYPE_MAX ∧ (bom_types_at i).name = name)
      ∧ (bom_type_from_name name = .error .unknown_bom_type
          ↔ ∀ i, i < BOM_TYPE_MAX → (bom_types_at i).name ≠ name)
      ∧ (∀ e, bom_type_from_name name = .error e → e = .unknown_bom_type ∧ e.status = 1)
      ∧ (∀ i, i < BOM_TYPE_MAX → bom_type_from_name (bom_types_at i).name = .ok i) := by
  have hr : List.range BOM_TYPE_MAX = [0, 1, 2, 3, 4, 5, 6, 7] := by decide
  have key : ∀ nm : String,
      (∀ k, k < 8 → (bom_types_at k).name = nm → bom_type_from_name nm = .ok k)
      ∧ ((∀ k, k < 8 → (bom_types_at k).name ≠ nm) →
          bom_type_from_name nm = .error .unknown_bom_type) := by
    intro nm
    constructor
    · intro k hk hnm
      subst hnm
      interval_cases k <;> decide
    · intro h
      have h0 : ((bom_types_at 0).name == nm) = false := beq_eq_false_iff_ne.2 (h 0 (by omega))
      have h1 : ((bom_types_at 1).name == nm) = false := beq_eq_false_iff_ne.2 (h 1 (by omega))
      have h2 : ((bom_types_at 2).name == nm) = false := beq_eq_false_iff_ne.2 (h 2 (by omega))
      have h3 : ((bom_types_at 3).name == nm) = false := beq_eq_false_iff_ne.2 (h 3 (by omega))
      have h4 : ((bom_types_at 4).name == nm) = false := beq_eq_false_iff_ne.2 (h 4 (by omega))
      have h5 : ((bom_types_at 5).name == nm) = false := beq_eq_false_iff_ne.2 (h 5 (by omega))
      have h6 : ((bom_types_at 6).name == nm) = false := beq_eq_false_iff_ne.2 (h 6 (by omega))
      have h7 : ((bom_types_at 7).name == nm) = false := beq_eq_false_iff_ne.2 (h 7 (by omega))
      simp only [bom_type_from_name, hr, List.find?, h0, h1, h2, h3, h4, h5, h6, h7]
  have huniq : ∀ i k, i < 8 → k < 8 → (bom_types_at i).name = (bom_types_at k).name → i = k := by
    intro i k hi hk
    interval_cases i <;> interval_cases k <;> decide
  have hcases : (∃ k, k < 8 ∧ (bom_types_at k).name = name)
      ∨ (∀ k, k < 8 → (bom_types_at k).name ≠ name) := by
    by_cases h : ∃ k, k < 8 ∧ (bom_types_at k).name = name
    · exact Or.inl h
    · right
      intro k hk hn
      exact h ⟨k, hk, hn⟩
  simp only [BOM_TYPE_MAX]
  refine ⟨?_, ?_, ?_, ?_⟩
  · intro i
    rcases hcases with ⟨k, hk, hn⟩ | hno
    · rw [(key name).1 k hk hn]
      constructor
      · intro h
        injection h with h
        subst h
        exact ⟨hk, hn⟩
      · rintro ⟨hi, hin⟩
        rw [huniq i k hi hk (hin.trans hn.symm)]
    · rw [(key name).2 hno]
      constructor
      · intro h
        cases h
      · rintro ⟨hi, hin⟩
        exact absurd hin (hno i hi)
  · rcases hcases with ⟨k, hk, hn⟩ | hno
    · rw [(key name).1 k hk hn]
      constructor
      · intro h
        cases h
      · intro h
        exact absurd hn (h k hk)
    · rw [(key name).2 hno]
      exact ⟨fun _ => hno, fun _ => rfl⟩
  · intro e he
    rcases hcases with ⟨k, hk, hn⟩ | hno
    · rw [(key name).1 k hk hn] at he
      cases he
    · rw [(key name).2 hno] at he
      injection he with he
      subst he
      exact ⟨rfl, rfl⟩
  · intro i hi
    exact (key _).1 i hi rfl

/-- C13: the catalog has exactly the 8 entries of the table, in its order,
each with `len` the number of its bytes; `bom_list` writes the 8 names in that
order; and `bom_print` writes, for each index, the bytes of its entry. -/
theorem C13_catalog :
    bom_types.map (fun bt => (bt.name, bt.encoding, bt.bytes, bt.len)) =
        [ ("NONE", none, [], 0),
          ("UTF-7", some "UTF-7", [0x2b, 0x2f, 0x76], 3),
          ("UTF-8", some "UTF-8", [0xef, 0xbb, 0xbf], 3),
          ("UTF-16BE", some "UTF-16BE", [0xfe, 0xff], 2),
          ("UTF-16LE", some "UTF-16LE", [0xff, 0xfe], 2),
          ("UTF-32BE", some "UTF-32BE", [0x00, 0x00, 0xfe, 0xff], 4),
          ("UTF-32LE", some "UTF-32LE", [0xff, 0xfe, 0x00, 0x00], 4),
          ("GB18030", some "GB18030", [0x84, 0x31, 0x95, 0x33], 4) ]
      ∧ bom_types.length = BOM_TYPE_MAX
      ∧ bom_list = ["NONE", "UTF-7", "UTF-8", "UTF-16BE", "UTF-16LE", "UTF-32BE", "UTF-32LE",
          "GB18030"]
      ∧ (List.range BOM_TYPE_MAX).map bom_print = bom_types.map (fun bt => bt.bytes)
      ∧ (List.range BOM_TYPE_MAX).map (fun i => (bom_types_at i).len)
          = bom_types.map (fun bt => bt.bytes.length) := by
  refine ⟨?_, ?_, ?_, ?_, ?_⟩ <;> decide

/-- C14: feed the bytes `b`, at most `BUFFER_SIZE` of them, one at a time by
`read_byte` to a fresh `bom_input`.  Every call returns 1, and in the state
reached each signature `S` other than NONE, of length `L`, is complete exactly
when `L` is at most the length of `b` and the bytes of `S` are the first `L`
bytes of `b`; prefix exactly when `b` is shorter than `L` and `b` is the first
bytes of `S`; and failed exactly when neither holds.  Moreover one call of
`read_byte` on a byte `ch`, from any `bom_input` with room in the buffer and
8 valid states, moves a signature in the prefix state to failed when its byte
at `len` differs from `ch`, to complete when the byte is `ch` and is its last
one, and leaves it prefix when the byte is `ch` and the signature is longer. -/
theorem C14_match_states (b : List Byte) (hb : b.length ≤ BUFFER_SIZE) :
    (∃ input, feed_bytes b init_bom_input = .ok input
      ∧ ∀ i, 1 ≤ i → i < BOM_TYPE_MAX →
          (state_of input i = MATCH_COMPLETE ↔
            (bom_types_at i).len ≤ b.length
              ∧ (bom_types_at i).bytes = b.take (bom_types_at i).len)
          ∧ (state_of input i = MATCH_PREFIX ↔
            b.length < (bom_types_at i).len
              ∧ b = (bom_types_at i).bytes.take b.length)
          ∧ (state_of input i = MATCH_FAILED ↔
            ¬ ((bom_types_at i).len ≤ b.length
                ∧ (bom_types_at i).bytes = b.take (bom_types_at i).len)
              ∧ ¬ (b.length < (bom_types_at i).len
                ∧ b = (bom_types_at i).bytes.take b.length)))
      ∧ ∀ (ch : Byte) (input : bom_input), input.len < BUFFER_SIZE →
          input.match_state.length = BOM_TYPE_MAX →
          (∀ i, i < BOM_TYPE_MAX → state_of input i ≤ 2) →
          ∃ input', read_byte (some ch) input = .ok (true, input')
            ∧ ∀ i, i < BOM_TYPE_MAX → state_of input i = MATCH_PREFIX →
                state_of input' i =
                  if (bom_types_at i).byte_at input.len ≠ ch then MATCH_FAILED
                  else if (bom_types_at i).len = input.len + 1 then MATCH_COMPLETE
                  else MATCH_PREFIX := by
  constructor
  · refine ⟨fed_input b, feed_bytes_init b hb, ?_⟩
    intro i _ hi
    have hpre : b <+: sig i ∧ b.length < (sig i).length
        ↔ b.length < (sig i).length ∧ b = (sig i).take b.length := by
      rw [isPrefix_iff_take]
      constructor
      · rintro ⟨⟨_, h⟩, h2⟩
        exact ⟨h2, h⟩
      · rintro ⟨h2, h⟩
        exact ⟨⟨by omega, h⟩, h2⟩
    rw [state_of_fed_input b i hi, len_eq_length, sig_eq, match_of_complete_iff,
      match_of_prefix_iff, match_of_failed_iff, isPrefix_iff_take, hpre]
    exact ⟨Iff.rfl, Iff.rfl, Iff.rfl⟩
  · intro ch input hlen hms hv
    obtain ⟨input', h1, _, _, _, h5⟩ := read_byte_step ch input hlen hms hv
    refine ⟨input', h1, ?_⟩
    intro i hi hp
    rw [h5 i hi, hp, len_eq_length]
    simp only [next_state, if_true, bom_type.byte_at, sig]

theorem C14_match_states_witness :
    (([0xff, 0xfe, 0x00] : List Byte).length ≤ BUFFER_SIZE)
      ∧ ((∃ input, feed_bytes [0xff, 0xfe, 0x00] init_bom_input = .ok input
        ∧ ∀ i, 1 ≤ i → i < BOM_TYPE_MAX →
            (state_of input i = MATCH_COMPLETE ↔
              (bom_types_at i).len ≤ ([0xff, 0xfe, 0x00] : List Byte).length
                ∧ (bom_types_at i).bytes
                  = ([0xff, 0xfe, 0x00] : List Byte).take (bom_types_at i).len)
            ∧ (state_of input i = MATCH_PREFIX ↔
              ([0xff, 0xfe, 0x00] : List Byte).length < (bom_types_at i).len
                ∧ [0xff, 0xfe, 0x00]
                  = (bom_types_at i).bytes.take ([0xff, 0xfe, 0x00] : List Byte).length)
            ∧ (state_of input i = MATCH_FAILED ↔
              ¬ ((bom_types_at i).len ≤ ([0xff, 0xfe, 0x00] : List Byte).length
                  ∧ (bom_types_at i).bytes
                    = ([0xff, 0xfe, 0x00] : List Byte).take (bom_types_at i).len)
                ∧ ¬ (([0xff, 0xfe, 0x00] : List Byte).length < (bom_types_at i).len
                  ∧ [0xff, 0xfe, 0x00]
                    = (bom_types_at i).bytes.take ([0xff, 0xfe, 0x00] : List Byte).length)))
        ∧ ∀ (ch : Byte) (input : bom_input), input.len < BUFFER_SIZE →
            input.match_state.length = BOM_TYPE_MAX →
            (∀ i, i < BOM_TYPE_MAX → state_of input i ≤ 2) →
            ∃ input', read_byte (some ch) input = .ok (true, input')
              ∧ ∀ i, i < BOM_TYPE_MAX → state_of input i = MATCH_PREFIX →
                  state_of input' i =
                    if (bom_types_at i).byte_at input.len ≠ ch then MATCH_FAILED
                    else if (bom_types_at i).len = input.len + 1 then MATCH_COMPLETE
                    else MATCH_PREFIX) :=
  ⟨by decide, C14_match_states [0xff, 0xfe, 0x00] (by decide)⟩

/-- C16: in the `bom_input` reached from `init_bom_input` by calls of
`read_byte` on the bytes `b` (at most `BUFFER_SIZE` of them), and also in that
state after the disambiguation step, `num_complete` is the number of
signatures whose state is complete, `num_finished` the number of those whose
state is not prefix, `len` the number of bytes fed, and `buf[0..len)` holds the
bytes fed, in order; in particular this holds of the `bom_input` that
`read_bom` leaves, for the bytes it has taken from the stream. -/
theorem C16_counters_agree (b : List Byte) (prefer32 : Bool) (hb : b.length ≤ BUFFER_SIZE) :
    (∃ input, feed_bytes b init_bom_input = .ok input
        ∧ input_agrees input b
        ∧ input_agrees (disambiguate input prefer32) b)
      ∧ ∀ x : List Byte, ∃ n t input,
          read_bom x init_bom_input 0 prefer32 = .ok (t, x.drop n, input)
            ∧ input_agrees input (x.take n) := by
  constructor
  · exact ⟨fed_input b, feed_bytes_init b hb, (fed_input_agrees b prefer32).1,
      (fed_input_agrees b prefer32).2⟩
  · intro x
    exact ⟨_, _, _, read_bom_eq_zero x prefer32, (fed_input_agrees _ prefer32).2⟩

theorem C16_counters_agree_witness :
    (([0xff, 0xfe, 0x00, 0x00, 0x41] : List Byte).length ≤ BUFFER_SIZE)
      ∧ ((∃ input, feed_bytes [0xff, 0xfe, 0x00, 0x00, 0x41] init_bom_input = .ok input
          ∧ input_agrees input [0xff, 0xfe, 0x00, 0x00, 0x41]
          ∧ input_agrees (disambiguate input false) [0xff, 0xfe, 0x00, 0x00, 0x41])
        ∧ ∀ x : List Byte, ∃ n t input,
            read_bom x init_bom_input 0 false = .ok (t, x.drop n, input)
              ∧ input_agrees input (x.take n)) :=
  ⟨by decide, C16_counters_agree [0xff, 0xfe, 0x00, 0x00, 0x41] false (by decide)⟩

/-- C17: on every byte stream `x` the loop of `read_bom` ends, having taken
`n` bytes: the `bom_input` it leaves is the one reached by `read_byte` on the
first `n` bytes of `x`; after these `n` bytes the stream is at its end or no
signature is in the prefix state; after fewer bytes some signature is still in
the prefix state; so `n` is at most 4 and `read_bom` never ends with the
"input buffer overflow" or the "invalid match state" error.  And in every
state reached by `read_byte` from `init_bom_input`, a signature in the prefix
state is longer than `len`, the index at which `read_byte` reads its bytes. -/
theorem C17_feeding_stops (x : List Byte) :
    (∃ n input, read_bom_loop x init_bom_input = .ok (x.drop n, input)
        ∧ feed_bytes (x.take n) init_bom_input = .ok input
        ∧ n ≤ x.length ∧ n ≤ 4 ∧ input.len = n
        ∧ (n = x.length ∨ ∀ i, i < BOM_TYPE_MAX → state_of input i ≠ MATCH_PREFIX)
        ∧ ∀ m, m < n → ∃ fed, feed_bytes (x.take m) init_bom_input = .ok fed
            ∧ ∃ i, i < BOM_TYPE_MAX ∧ state_of fed i = MATCH_PREFIX)
      ∧ (∀ E p, read_bom x init_bom_input E p ≠ .error .input_buffer_overflow
          ∧ read_bom x init_bom_input E p ≠ .error .invalid_match_state)
      ∧ ∀ b : List Byte, b.length ≤ BUFFER_SIZE →
          ∃ fed, feed_bytes b init_bom_input = .ok fed
            ∧ ∀ i, i < BOM_TYPE_MAX → state_of fed i = MATCH_PREFIX →
                fed.len < (bom_types_at i).len := by
  have hn4 := feed_count_nil_le x
  have hnl := feed_count_le_length x []
  have hlen : ∀ k, k ≤ x.length → k ≤ 4 → (x.take k).length ≤ BUFFER_SIZE := by
    intro k _ hk
    simp only [List.length_take, BUFFER_SIZE]
    omega
  refine ⟨⟨feed_count x [], fed_input (x.take (feed_count x [])), read_bom_loop_init x,
    feed_bytes_init _ (hlen _ hnl hn4), hnl, hn4, ?_, ?_, ?_⟩, ?_, ?_⟩
  · simp only [fed_input, List.length_take]
    omega
  · rcases feed_count_stop x [] with h | h
    · exact Or.inl h
    · right
      simp only [List.nil_append] at h
      intro i hi
      rw [state_of_fed_input _ i hi]
      exact (num_finished_eq_max_iff _).1 h i hi
  · intro m hm
    refine ⟨fed_input (x.take m), feed_bytes_init _ (hlen m (by omega) (by omega)), ?_⟩
    have hne : (fed_input (x.take m)).num_finished ≠ BOM_TYPE_MAX := by
      rcases Nat.eq_zero_or_pos m with h0 | hpos
      · subst h0
        simp only [List.take_zero]
        decide
      · have := feed_count_min x [] m hpos hm
        simpa using this
    rw [Ne, num_finished_eq_max_iff] at hne
    push_neg at hne
    obtain ⟨i, hi, hp⟩ := hne
    exact ⟨i, hi, by rw [state_of_fed_input _ i hi]; exact hp⟩
  · intro E p
    rw [read_bom_eq]
    split_ifs <;> exact ⟨by simp, by simp⟩
  · intro b hb
    refine ⟨fed_input b, feed_bytes_init b hb, ?_⟩
    intro i hi hp
    rw [state_of_fed_input b i hi, match_of_prefix_iff] at hp
    rw [len_eq_length]
    exact hp.2

/-- C18: whenever `read_bom`, on a stream `x` with any mask of expected types
and either value of `prefer32`, returns a type `t` with the `bom_input`
`input`: `len` is at least the length of the signature of `t`, the first bytes
of `buf` are that signature, so that the residue length `input.len - bt->len`
that `bom_strip` computes is not negative, and it is at most 4; the bytes
`buf[bt->len..len)` are the bytes of `x` that follow the BOM; and the stream is
left after the first `len` bytes of `x`. -/
theorem C18_residue (x : List Byte) (E : Nat) (prefer32 : Bool) (t : Nat) (fp : FILE)
    (input : bom_input) (h : read_bom x init_bom_input E prefer32 = .ok (t, fp, input)) :
    (bom_types_at t).len ≤ input.len
      ∧ input.buf.take (bom_types_at t).len = (bom_types_at t).bytes
      ∧ 0 ≤ residue_len input (bom_types_at t)
      ∧ residue_len input (bom_types_at t) ≤ 4
      ∧ (input.buf.drop (bom_types_at t).len).take (residue_len input (bom_types_at t)).toNat
          = (x.drop (bom_types_at t).len).take (input.len - (bom_types_at t).len)
      ∧ input.buf.take input.len = x.take input.len
      ∧ fp = x.drop input.len := by
  rw [read_bom_eq] at h
  split_ifs at h with hE
  simp only [Except.ok.injEq, Prod.mk.injEq] at h
  obtain ⟨rfl, rfl, rfl⟩ := h
  have hn4 := feed_count_nil_le x
  have hnl := feed_count_le_length x []
  obtain ⟨hb, hl⟩ := disambiguate_buf (fed_input (x.take (feed_count x []))) prefer32
  have hpre : sig (resolved x prefer32) <+: x.take (feed_count x []) :=
    (prefix_take_feed_count x _).2 (resolved_isPrefix x prefer32)
  have htl : (x.take (feed_count x [])).length = feed_count x [] := by
    simp only [List.length_take]; omega
  have hL : (sig (resolved x prefer32)).length ≤ (x.take (feed_count x [])).length :=
    hpre.length_le
  have hres := residue_eq (x.take (feed_count x [])) (sig (resolved x prefer32)).length hL
  have hlen : (fed_input (x.take (feed_count x []))).len = feed_count x [] := htl
  have hbuf : (fed_input (x.take (feed_count x []))).buf
      = x.take (feed_count x [])
        ++ List.replicate (BUFFER_SIZE - (x.take (feed_count x [])).length) 0 := rfl
  simp only [residue_len, hb, hl, len_eq_length, hlen, sig_eq]
  have key : ∀ (T : List Byte) (n L : Nat), T.length = n → L ≤ n →
      ((T ++ List.replicate (BUFFER_SIZE - T.length) 0).drop L).take ((n : Int) - (L : Int)).toNat
        = T.drop L := by
    intro T n L hT hLn
    subst hT
    exact residue_eq T L hLn
  rw [htl] at hL
  rw [hbuf]
  refine ⟨hL, ?_, by omega, by omega, ?_, ?_⟩
  · rw [List.take_append_of_le_length (by omega)]
    exact (List.prefix_iff_eq_take.1 hpre).symm
  · rw [key _ _ _ htl hL, List.drop_take]
  · refine ⟨?_, trivial⟩
    rw [List.take_append_of_le_length (by omega), List.take_take, Nat.min_self]

theorem C18_residue_witness :
    read_bom [0xff, 0xfe, 0x41, 0x42] init_bom_input 0 false
        = .ok (4, [0x42], fed_input [0xff, 0xfe, 0x41])
      ∧ (bom_types_at 4).len ≤ (fed_input [0xff, 0xfe, 0x41]).len
      ∧ (fed_input [0xff, 0xfe, 0x41]).buf.take (bom_types_at 4).len
          = (bom_types_at 4).bytes
      ∧ 0 ≤ residue_len (fed_input [0xff, 0xfe, 0x41]) (bom_types_at 4)
      ∧ residue_len (fed_input [0xff, 0xfe, 0x41]) (bom_types_at 4) ≤ 4
      ∧ ((fed_input [0xff, 0xfe, 0x41]).buf.drop (bom_types_at 4).len).take
            (residue_len (fed_input [0xff, 0xfe, 0x41])
              (bom_types_at 4)).toNat
          = (([0xff, 0xfe, 0x41, 0x42] : List Byte).drop (bom_types_at 4).len).take
              ((fed_input [0xff, 0xfe, 0x41]).len - (bom_types_at 4).len)
      ∧ (fed_input [0xff, 0xfe, 0x41]).buf.take
            (fed_input [0xff, 0xfe, 0x41]).len
          = ([0xff, 0xfe, 0x41, 0x42] : List Byte).take
              (fed_input [0xff, 0xfe, 0x41]).len
      ∧ [0x42] = ([0xff, 0xfe, 0x41, 0x42] : List Byte).drop
          (fed_input [0xff, 0xfe, 0x41]).len :=
  ⟨by rfl, C18_residue [0xff, 0xfe, 0x41, 0x42] 0 false 4 [0x42]
    (fed_input [0xff, 0xfe, 0x41]) (by rfl)⟩

/-- C20: take a round of `bom_strip` with conversion, in any state, in which
after the fill (`hfill`) the conversion service reports an error `e` other
than `EINVAL` (`herr`, `he`).  When `e` is `EILSEQ`: in lenient mode the round
does not fail, nothing of the buffer is kept for the next round, what the
service produced in the round is written, and the loop goes on with the next
round (it ends normally there when the buffer was empty, which sets `done`);
in strict mode the round, and so the loop, ends with the "invalid byte
sequence" error, whose exit status is `EX_ILLEGAL_BYTES` = 3.  When `e` is any
other error, the round and the loop end with the `err(1, "iconv")` error, whose
exit status is 1, in lenient and in strict mode. -/
theorem C20_invalid_sequence {σ : Type} (svc : iconv_service σ) (s : strip_state σ)
    (short' : List Nat) (fp' : FILE) (ibuf' : List Byte) (eof : Bool) (e : iconv_errno)
    (hfill : fill_loop (BUFFER_SIZE + 1) s.short s.fp s.ibuf = some (short', fp', ibuf', eof))
    (herr : (round_iconv svc s ibuf').error = some e)
    (he : e ≠ .EINVAL) :
    (e = .EILSEQ →
        (∃ s', strip_round svc true true s = some (.ok (s', decide (ibuf' = [])))
          ∧ s'.ibuf = []
          ∧ s'.fp = fp'
          ∧ s'.out = s.out ++ (round_iconv svc s ibuf').output
          ∧ (ibuf' ≠ [] →
              ∀ fuel, strip_loop svc true true (fuel + 1) s = strip_loop svc true true fuel s')
          ∧ (ibuf' = [] → ∀ fuel, strip_loop svc true true (fuel + 1) s = some (.ok s')))
        ∧ ∃ off, strip_round svc false true s = some (.error (.illegal_bytes off))
          ∧ (∀ fuel, strip_loop svc false true (fuel + 1) s = some (.error (.illegal_bytes off)))
          ∧ (Fatal.illegal_bytes off).status = EX_ILLEGAL_BYTES)
      ∧ EX_ILLEGAL_BYTES = 3
      ∧ (e = .other → ∀ lenient : Bool,
          strip_round svc lenient true s = some (.error .iconv_failed)
            ∧ (∀ fuel, strip_loop svc lenient true (fuel + 1) s = some (.error .iconv_failed))
            ∧ Fatal.iconv_failed.status = 1) := by
  have hdone : decide (ibuf'.length = 0) = decide (ibuf' = []) := by
    simp only [decide_eq_decide, List.length_eq_zero]
  refine ⟨?_, rfl, ?_⟩
  · intro hE
    subst hE
    have hstrict : strip_round svc false true s = some (.error (.illegal_bytes
        (s.offset + if (!decide (ibuf'.length = 0)) = true
          then (round_iconv svc s ibuf').consumed else 0))) := by
      unfold strip_round
      rw [hfill]
      simp only [if_true, round_iconv_eq, herr, Bool.false_eq_true, if_false]
    have hlenient : strip_round svc true true s = some (.ok
        (finish_round s short' fp' ibuf' (round_iconv svc s ibuf').icd
          ((if (!decide (ibuf'.length = 0)) = true then (round_iconv svc s ibuf').consumed else 0)
            + (ibuf'.length - if (!decide (ibuf'.length = 0)) = true
                then (round_iconv svc s ibuf').consumed else 0))
          0 (round_iconv svc s ibuf').output, decide (ibuf' = []))) := by
      unfold strip_round
      rw [hfill, ← hdone]
      simp only [if_true, round_iconv_eq, herr]
    refine ⟨⟨_, hlenient, ?_, rfl, rfl, ?_, ?_⟩, _, hstrict, ?_, rfl⟩
    · simp [finish_round]
    · intro hne fuel
      rw [strip_loop, hlenient]
      simp [hne]
    · intro hnil fuel
      rw [strip_loop, hlenient]
      simp [hnil]
    · intro fuel
      unfold strip_loop
      rw [hstrict]
  · intro hE lenient
    subst hE
    have hround : strip_round svc lenient true s = some (.error .iconv_failed) := by
      unfold strip_round
      rw [hfill]
      simp only [if_true, round_iconv_eq, herr]
    refine ⟨hround, ?_, rfl⟩
    intro fuel
    unfold strip_loop
    rw [hround]

theorem C20_invalid_sequence_witness :
    fill_loop (BUFFER_SIZE + 1) [] [] [0x41, 0xff, 0x42] = some ([], [], [0x41, 0xff, 0x42], true)
      ∧ (round_iconv utf8_copy
            { fp := [], short := [], ibuf := [0x41, 0xff, 0x42], offset := 3, icd := (),
              out := [] }
            [0x41, 0xff, 0x42]).error = some .EILSEQ
      ∧ iconv_errno.EILSEQ ≠ .EINVAL
      ∧ (∃ s', strip_round utf8_copy true true
              { fp := [], short := [], ibuf := [0x41, 0xff, 0x42], offset := 3, icd := (),
                out := [] }
              = some (.ok (s', decide (([0x41, 0xff, 0x42] : List Byte) = [])))
          ∧ s'.ibuf = []
          ∧ s'.fp = []
          ∧ s'.out = [] ++ (round_iconv utf8_copy
              { fp := [], short := [], ibuf := [0x41, 0xff, 0x42], offset := 3, icd := (),
                out := [] }
              [0x41, 0xff, 0x42]).output
          ∧ (([0x41, 0xff, 0x42] : List Byte) ≠ [] →
              ∀ fuel, strip_loop utf8_copy true true (fuel + 1)
                { fp := [], short := [], ibuf := [0x41, 0xff, 0x42], offset := 3, icd := (),
                  out := [] }
                = strip_loop utf8_copy true true fuel s')
          ∧ (([0x41, 0xff, 0x42] : List Byte) = [] →
              ∀ fuel, strip_loop utf8_copy true true (fuel + 1)
                { fp := [], short := [], ibuf := [0x41, 0xff, 0x42], offset := 3, icd := (),
                  out := [] }
                = some (.ok s')))
      ∧ ∃ off, strip_round utf8_copy false true
            { fp := [], short := [], ibuf := [0x41, 0xff, 0x42], offset := 3, icd := (),
              out := [] }
            = some (.error (.illegal_bytes off))
          ∧ (∀ fuel, strip_loop utf8_copy false true (fuel + 1)
              { fp := [], short := [], ibuf := [0x41, 0xff, 0x42], offset := 3, icd := (),
                out := [] }
              = some (.error (.illegal_bytes off)))
          ∧ (Fatal.illegal_bytes off).status = EX_ILLEGAL_BYTES :=
  ⟨by decide, by decide, by decide,
    (C20_invalid_sequence utf8_copy
      { fp := [], short := [], ibuf := [0x41, 0xff, 0x42], offset := 3, icd := (), out := [] }
      [] [] [0x41, 0xff, 0x42] true .EILSEQ (by decide) (by decide) (by decide)).1 rfl⟩

/-- Two whole runs on the UTF-8 BOM followed by `A`, the byte FF and `B`: in
strict mode the run ends with the "invalid byte sequence" error at file offset
4, in lenient mode it ends normally and has written `A` only. -/
theorem invalid_utf8_run :
    bom_strip utf8_copy 5 [0xef, 0xbb, 0xbf, 0x41, 0xff, 0x42] [] 0 false false true
        = some (.error (.illegal_bytes 4))
      ∧ bom_strip utf8_copy 5 [0xef, 0xbb, 0xbf, 0x41, 0xff, 0x42] [] 0 true false true
        = some (.ok [0x41]) := by
  decide

/-- C21: let `read_bom` return on the stream `x` (`hread`), and let `s` be
the state at the start of round `k` of the main loop of `bom_strip`, started
as `bom_strip` starts it (`hstart`), with or without conversion, in strict or
lenient mode.  Then `offset` plus the number of bytes in the buffer is the
number of bytes of `x` read so far: the stream left is `x` without its first
`offset + ilen` bytes; and the buffer holds the bytes of `x` from position
`offset` on, so `offset` is the position in `x`, BOM included, of the first
byte of the buffer.  When the round ends with the "invalid byte sequence"
error, which only happens in strict mode with conversion and ends the loop,
the file offset reported is `offset + (iptr - ibuf)`; and, the service having
taken no more bytes than the buffer holds, that offset is a position of `x`,
the bytes of `x` before it are the bytes before the buffer and the bytes the
call of `iconv` took, and the bytes of `x` from it on start with the bytes of
the buffer that the call did not take. -/
theorem C21_offset_invariant {σ : Type} (svc : iconv_service σ) (lenient utf8 : Bool)
    (x : List Byte) (E : Nat) (prefer32 : Bool) (t : Nat) (fp : FILE) (input : bom_input)
    (short : List Nat) (icd : σ) (k : Nat) (s : strip_state σ)
    (hread : read_bom x init_bom_input E prefer32 = .ok (t, fp, input))
    (hstart : round_start svc lenient utf8 k
        { fp := fp
          short := short
          ibuf := (input.buf.drop (bom_types_at t).len).take
            (residue_len input (bom_types_at t)).toNat
          offset := (bom_types_at t).len
          icd := icd
          out := [] } = some s) :
    s.offset + s.ibuf.length ≤ x.length
      ∧ s.fp = x.drop (s.offset + s.ibuf.length)
      ∧ s.offset + s.ibuf.length = x.length - s.fp.length
      ∧ s.ibuf = (x.drop s.offset).take s.ibuf.length
      ∧ (k = 0 → s.offset = (bom_types_at t).len)
      ∧ ∀ off, strip_round svc lenient utf8 s = some (.error (.illegal_bytes off)) →
          lenient = false ∧ utf8 = true
            ∧ off = s.offset + round_adv svc s
            ∧ (∀ fuel, strip_loop svc lenient utf8 (k + (fuel + 1))
                { fp := fp
                  short := short
                  ibuf := (input.buf.drop (bom_types_at t).len).take
                    (residue_len input (bom_types_at t)).toNat
                  offset := (bom_types_at t).len
                  icd := icd
                  out := [] } = some (.error (.illegal_bytes off)))
            ∧ (round_adv svc s ≤ (round_buffer s).length →
                off ≤ x.length
                  ∧ x.take off = x.take s.offset ++ round_consumed svc s
                  ∧ (x.drop off).take ((round_buffer s).length - round_adv svc s)
                      = (round_buffer s).drop (round_adv svc s)) := by
  have hres := read_bom_residue x E prefer32 t fp input hread
  have hle := read_bom_len_le x E prefer32 t fp input hread
  have hlen0 := congrArg List.length hres
  simp only [List.length_append, List.length_drop] at hlen0
  obtain ⟨hx, hl⟩ := round_start_offset svc lenient utf8 x k _ s hstart hres
    (by simp only [List.length_append, List.length_drop] at hlen0 ⊢; omega)
  have hfp : s.fp = x.drop (s.offset + s.ibuf.length) := by
    rw [← List.drop_drop, ← hx, List.drop_left]
  refine ⟨by omega, hfp, by omega, ?_, ?_, ?_⟩
  · rw [← hx, List.take_left]
  · intro hk
    subst hk
    simp only [round_start, Option.some.injEq] at hstart
    rw [← hstart]
  · intro off herr
    obtain ⟨h1, h2, h3⟩ := strip_round_illegal svc lenient utf8 s off herr
    refine ⟨h1, h2, h3, ?_, ?_⟩
    · intro fuel
      rw [strip_loop_round_start svc lenient utf8 k _ s hstart, strip_loop, herr]
    · intro hcons
      have hsplit : round_buffer s ++ s.fp.drop (BUFFER_SIZE - s.ibuf.length)
          = x.drop s.offset := by
        rw [round_buffer_eq, List.append_assoc, List.take_append_drop, hx]
      have hblen := congrArg List.length hsplit
      simp only [List.length_append, List.length_drop] at hblen
      rw [h3]
      refine ⟨by omega, ?_, ?_⟩
      · rw [List.take_add, ← hsplit, List.take_append_of_le_length hcons, round_consumed_eq]
      · rw [← List.drop_drop, ← hsplit, List.drop_append_of_le_length hcons,
          List.take_append_of_le_length (by simp), List.take_of_length_le (by simp)]

set_option maxRecDepth 40000 in
theorem C21_offset_invariant_witness :
    read_bom ([0xef, 0xbb, 0xbf] ++ (List.replicate 1023 0x41 ++ [0xe2, 0x82, 0xac, 0xff, 0x42]) : List Byte)
        init_bom_input 0 false
        = .ok (2, List.replicate 1023 0x41 ++ [0xe2, 0x82, 0xac, 0xff, 0x42],
            fed_input [0xef, 0xbb, 0xbf])
      ∧ round_start utf8_copy false true 1
          { fp := List.replicate 1023 0x41 ++ [0xe2, 0x82, 0xac, 0xff, 0x42]
            short := []
            ibuf := ((fed_input [0xef, 0xbb, 0xbf]).buf.drop (bom_types_at 2).len).take
              (residue_len (fed_input [0xef, 0xbb, 0xbf]) (bom_types_at 2)).toNat
            offset := (bom_types_at 2).len
            icd := ()
            out := [] }
        = some ({ fp := [0x82, 0xac, 0xff, 0x42], short := [], ibuf := [0xe2], offset := 1026,
                  icd := (), out := List.replicate 1023 0x41 } : strip_state Unit)
      ∧ strip_round utf8_copy false true
          ({ fp := [0x82, 0xac, 0xff, 0x42], short := [], ibuf := [0xe2], offset := 1026,
             icd := (), out := List.replicate 1023 0x41 } : strip_state Unit)
        = some (.error (.illegal_bytes 1029))
      ∧ round_adv utf8_copy
          ({ fp := [0x82, 0xac, 0xff, 0x42], short := [], ibuf := [0xe2], offset := 1026,
             icd := (), out := List.replicate 1023 0x41 } : strip_state Unit)
        ≤ (round_buffer
          ({ fp := [0x82, 0xac, 0xff, 0x42], short := [], ibuf := [0xe2], offset := 1026,
             icd := (), out := List.replicate 1023 0x41 } : strip_state Unit)).length
      ∧ ({ fp := [0x82, 0xac, 0xff, 0x42], short := [], ibuf := [0xe2], offset := 1026,
           icd := (), out := List.replicate 1023 0x41 } : strip_state Unit).offset
          + ({ fp := [0x82, 0xac, 0xff, 0x42], short := [], ibuf := [0xe2], offset := 1026,
               icd := (), out := List.replicate 1023 0x41 } : strip_state Unit).ibuf.length
        ≤ ([0xef, 0xbb, 0xbf] ++ (List.replicate 1023 0x41 ++ [0xe2, 0x82, 0xac, 0xff, 0x42]) : List Byte).length
      ∧ ({ fp := [0x82, 0xac, 0xff, 0x42], short := [], ibuf := [0xe2], offset := 1026,
           icd := (), out := List.replicate 1023 0x41 } : strip_state Unit).fp
        = ([0xef, 0xbb, 0xbf] ++ (List.replicate 1023 0x41 ++ [0xe2, 0x82, 0xac, 0xff, 0x42]) : List Byte).drop
          (({ fp := [0x82, 0xac, 0xff, 0x42], short := [], ibuf := [0xe2], offset := 1026,
              icd := (), out := List.replicate 1023 0x41 } : strip_state Unit).offset
          + ({ fp := [0x82, 0xac, 0xff, 0x42], short := [], ibuf := [0xe2], offset := 1026,
               icd := (), out := List.replicate 1023 0x41 } : strip_state Unit).ibuf.length)
      ∧ ({ fp := [0x82, 0xac, 0xff, 0x42], short := [], ibuf := [0xe2], offset := 1026,
           icd := (), out := List.replicate 1023 0x41 } : strip_state Unit).offset
          + ({ fp := [0x82, 0xac, 0xff, 0x42], short := [], ibuf := [0xe2], offset := 1026,
               icd := (), out := List.replicate 1023 0x41 } : strip_state Unit).ibuf.length
        = ([0xef, 0xbb, 0xbf] ++ (List.replicate 1023 0x41 ++ [0xe2, 0x82, 0xac, 0xff, 0x42]) : List Byte).length
          - ({ fp := [0x82, 0xac, 0xff, 0x42], short := [], ibuf := [0xe2], offset := 1026,
               icd := (), out := List.replicate 1023 0x41 } : strip_state Unit).fp.length
      ∧ ({ fp := [0x82, 0xac, 0xff, 0x42], short := [], ibuf := [0xe2], offset := 1026,
           icd := (), out := List.replicate 1023 0x41 } : strip_state Unit).ibuf
        = (([0xef, 0xbb, 0xbf] ++ (List.replicate 1023 0x41 ++ [0xe2, 0x82, 0xac, 0xff, 0x42]) : List Byte).drop
          ({ fp := [0x82, 0xac, 0xff, 0x42], short := [], ibuf := [0xe2], offset := 1026,
             icd := (), out := List.replicate 1023 0x41 } : strip_state Unit).offset).take
          ({ fp := [0x82, 0xac, 0xff, 0x42], short := [], ibuf := [0xe2], offset := 1026,
             icd := (), out := List.replicate 1023 0x41 } : strip_state Unit).ibuf.length
      ∧ (1 = 0 → ({ fp := [0x82, 0xac, 0xff, 0x42], short := [], ibuf := [0xe2], offset := 1026,
                    icd := (), out := List.replicate 1023 0x41 } : strip_state Unit).offset
          = (bom_types_at 2).len)
      ∧ ∀ off, strip_round utf8_copy false true
          ({ fp := [0x82, 0xac, 0xff, 0x42], short := [], ibuf := [0xe2], offset := 1026,
             icd := (), out := List.replicate 1023 0x41 } : strip_state Unit)
          = some (.error (.illegal_bytes off)) →
          false = false ∧ true = true
            ∧ off = ({ fp := [0x82, 0xac, 0xff, 0x42], short := [], ibuf := [0xe2], offset := 1026,
                       icd := (), out := List.replicate 1023 0x41 } : strip_state Unit).offset
              + round_adv utf8_copy
                ({ fp := [0x82, 0xac, 0xff, 0x42], short := [], ibuf := [0xe2], offset := 1026,
                   icd := (), out := List.replicate 1023 0x41 } : strip_state Unit)
            ∧ (∀ fuel, strip_loop utf8_copy false true (1 + (fuel + 1))
                { fp := List.replicate 1023 0x41 ++ [0xe2, 0x82, 0xac, 0xff, 0x42]
                  short := []
                  ibuf := ((fed_input [0xef, 0xbb, 0xbf]).buf.drop (bom_types_at 2).len).take
                    (residue_len (fed_input [0xef, 0xbb, 0xbf]) (bom_types_at 2)).toNat
                  offset := (bom_types_at 2).len
                  icd := ()
                  out := [] }
                = some (.error (.illegal_bytes off)))
            ∧ (round_adv utf8_copy
                  ({ fp := [0x82, 0xac, 0xff, 0x42], short := [], ibuf := [0xe2], offset := 1026,
                     icd := (), out := List.replicate 1023 0x41 } : strip_state Unit)
                ≤ (round_buffer
                  ({ fp := [0x82, 0xac, 0xff, 0x42], short := [], ibuf := [0xe2], offset := 1026,
                     icd := (), out := List.replicate 1023 0x41 } : strip_state Unit)).length →
                off ≤ ([0xef, 0xbb, 0xbf] ++ (List.replicate 1023 0x41 ++ [0xe2, 0x82, 0xac, 0xff, 0x42]) : List Byte).length
                  ∧ ([0xef, 0xbb, 0xbf] ++ (List.replicate 1023 0x41 ++ [0xe2, 0x82, 0xac, 0xff, 0x42]) : List Byte).take off
                    = ([0xef, 0xbb, 0xbf] ++ (List.replicate 1023 0x41 ++ [0xe2, 0x82, 0xac, 0xff, 0x42]) : List Byte).take
                      ({ fp := [0x82, 0xac, 0xff, 0x42], short := [], ibuf := [0xe2], offset := 1026,
                         icd := (), out := List.replicate 1023 0x41 } : strip_state Unit).offset
                      ++ round_consumed utf8_copy
                        ({ fp := [0x82, 0xac, 0xff, 0x42], short := [], ibuf := [0xe2], offset := 1026,
                           icd := (), out := List.replicate 1023 0x41 } : strip_state Unit)
                  ∧ (([0xef, 0xbb, 0xbf] ++ (List.replicate 1023 0x41 ++ [0xe2, 0x82, 0xac, 0xff, 0x42]) : List Byte).drop off).take
                      ((round_buffer
                        ({ fp := [0x82, 0xac, 0xff, 0x42], short := [], ibuf := [0xe2], offset := 1026,
                           icd := (), out := List.replicate 1023 0x41 } : strip_state Unit)).length
                        - round_adv utf8_copy
                          ({ fp := [0x82, 0xac, 0xff, 0x42], short := [], ibuf := [0xe2], offset := 1026,
                             icd := (), out := List.replicate 1023 0x41 } : strip_state Unit))
                      = (round_buffer
                          ({ fp := [0x82, 0xac, 0xff, 0x42], short := [], ibuf := [0xe2], offset := 1026,
                             icd := (), out := List.replicate 1023 0x41 } : strip_state Unit)).drop
                        (round_adv utf8_copy
                          ({ fp := [0x82, 0xac, 0xff, 0x42], short := [], ibuf := [0xe2], offset := 1026,
                             icd := (), out := List.replicate 1023 0x41 } : strip_state Unit))) :=
  ⟨by decide, by rfl, by rfl, by decide,
    C21_offset_invariant utf8_copy false true
      ([0xef, 0xbb, 0xbf] ++ (List.replicate 1023 0x41 ++ [0xe2, 0x82, 0xac, 0xff, 0x42]) : List Byte)
      0 false 2 (List.replicate 1023 0x41 ++ [0xe2, 0x82, 0xac, 0xff, 0x42])
      (fed_input [0xef, 0xbb, 0xbf]) [] () 1
      ({ fp := [0x82, 0xac, 0xff, 0x42], short := [], ibuf := [0xe2], offset := 1026,
         icd := (), out := List.replicate 1023 0x41 } : strip_state Unit)
      (by decide) (by rfl)⟩

end Bom
